import Mathlib

/-!
Verification development for the gh-report repository.

The definitions below are shallow embeddings of the Go source under `src/`:
  * `src/github/types.go`   — iteration classification,
  * `src/report/summary.go` — temporal filters, work/plan synthesis, collection.

Instants (`time.Time` values) are modelled as integers on a seconds scale;
`AddDate(0, 0, d)` on a midnight instant adds `86400 * d`.  Wherever a Go
function derives `today` by truncating `now` to local midnight
(`time.Date(now.Year(), now.Month(), now.Day(), 0, 0, 0, 0, now.Location())`),
the embedded function takes that already-truncated value `today` as its
parameter.
-/

/-- Category of an iteration relative to the reference date
(`IterationCategory` in `src/github/types.go`). -/
inductive IterationCategory where
  | previous
  | current
  | next
deriving DecidableEq, Repr

/-- Model of `github.ProjectIteration` (`src/github/types.go`).  The Go
`StartDate` field is a string in the format `2006-01-02`; we embed the result
of `time.Parse` on it: `some s` when the string parses to the instant `s`,
`none` when parsing fails. `duration` is a number of days. -/
structure ProjectIteration where
  id : String
  title : String
  startDate : Option Int
  duration : Int
deriving DecidableEq, Repr

/-- Seconds in a day: `start.AddDate(0, 0, d)` on a midnight instant adds
`86400 * d` seconds. -/
def secPerDay : Int := 86400

/-- End instant of an iteration whose start parsed to `s`:
`end := start.AddDate(0, 0, iter.Duration)`. -/
def iterEnd (s : Int) (it : ProjectIteration) : Int := s + secPerDay * it.duration

/-- End instant computed from the stored start with parse errors defaulted
(mirrors the Go `prevStart, _ := time.Parse(...)` pattern, which ignores the
error; the default is only ever reached on unparsable dates). -/
def iterEndD (it : ProjectIteration) : Int := iterEnd (it.startDate.getD 0) it

/-- Start instant with parse errors defaulted (Go `nextStart, _ := ...`). -/
def iterStartD (it : ProjectIteration) : Int := it.startDate.getD 0

/-- Model of `ClassifyIteration` (`src/github/types.go`): parse the start date
(unparsable dates yield `previous`), compute `end`, then compare with `today`
(the reference instant truncated to its date). -/
def ClassifyIteration (iter : ProjectIteration) (today : Int) : IterationCategory :=
  match iter.startDate with
  | none => .previous
  | some start =>
    if today < start then .next
    else if ¬ today < iterEnd start iter then .previous
    else .current

/-- Model of `github.RelevantIterations` (`src/github/types.go`). -/
structure RelevantIterations where
  previous : Option ProjectIteration
  current : Option ProjectIteration
  next : Option ProjectIteration
deriving DecidableEq, Repr

/-- One step of the loop body of `FindRelevantIterations`
(`src/github/types.go`).  Unparsable start dates are skipped (`continue`);
future iterations keep the earliest start; elapsed iterations keep the latest
end; everything else overwrites the `current` slot. -/
def considerIteration (today : Int) (r : RelevantIterations)
    (iter : ProjectIteration) : RelevantIterations :=
  match iter.startDate with
  | none => r
  | some start =>
    if today < start then
      match r.next with
      | none => { r with next := some iter }
      | some nx =>
        if start < iterStartD nx then { r with next := some iter } else r
    else if ¬ today < iterEnd start iter then
      match r.previous with
      | none => { r with previous := some iter }
      | some pv =>
        if iterEndD pv < iterEnd start iter then { r with previous := some iter } else r
    else { r with current := some iter }

/-- Model of `FindRelevantIterations` (`src/github/types.go`): fold the loop
body over the iteration list, starting from the empty result. -/
def FindRelevantIterations (iterations : List ProjectIteration) (today : Int) :
    RelevantIterations :=
  iterations.foldl (considerIteration today) ⟨none, none, none⟩

/-- The iteration's window has fully elapsed at `today`: its start parses and
`start + duration ≤ today`. -/
def elapsedAt (it : ProjectIteration) (today : Int) : Prop :=
  ∃ s, it.startDate = some s ∧ iterEnd s it ≤ today

/-- The iteration's window has started at `today`: its start parses and
`start ≤ today`. -/
def startedAt (it : ProjectIteration) (today : Int) : Prop :=
  ∃ s, it.startDate = some s ∧ s ≤ today

/-- The iteration's window has not yet started at `today`. -/
def upcomingAt (it : ProjectIteration) (today : Int) : Prop :=
  ∃ s, it.startDate = some s ∧ today < s

/-- The iteration's window `[start, start + duration)` contains `today`. -/
def currentAt (it : ProjectIteration) (today : Int) : Prop :=
  ∃ s, it.startDate = some s ∧ s ≤ today ∧ today < iterEnd s it

/-- Reachable-state invariant of the `FindRelevantIterations` loop: any stored
previous iteration has elapsed (and started), any stored next iteration is
upcoming, any stored current iteration contains `today`. -/
def GoodRelevant (today : Int) (r : RelevantIterations) : Prop :=
  (∀ p, r.previous = some p → elapsedAt p today ∧ startedAt p today) ∧
  (∀ n, r.next = some n → upcomingAt n today) ∧
  (∀ c, r.current = some c → currentAt c today)

lemma considerIteration_good (today : Int) (r : RelevantIterations)
    (it : ProjectIteration) (h : GoodRelevant today r) :
    GoodRelevant today (considerIteration today r it) := by
  obtain ⟨hp, hn, hc⟩ := h
  unfold considerIteration
  cases hsd : it.startDate with
  | none => exact ⟨hp, hn, hc⟩
  | some s =>
    by_cases h1 : today < s
    · simp only [h1, if_pos]
      cases hnx : r.next with
      | none =>
        refine ⟨hp, ?_, hc⟩
        intro n hn'
        simp only at hn'
        cases hn'
        exact ⟨s, hsd, h1⟩
      | some nx =>
        by_cases h2 : s < iterStartD nx
        · simp only [h2, if_pos]
          refine ⟨hp, ?_, hc⟩
          intro n hn'
          simp only at hn'
          cases hn'
          exact ⟨s, hsd, h1⟩
        · simp only [h2, if_neg, not_false_iff]
          exact ⟨hp, hn, hc⟩
    · by_cases h2 : ¬ today < iterEnd s it
      · simp only [h1, h2, if_neg, if_pos, not_false_iff]
        cases hpv : r.previous with
        | none =>
          refine ⟨?_, hn, hc⟩
          intro p hp'
          simp only at hp'
          cases hp'
          exact ⟨⟨s, hsd, by omega⟩, ⟨s, hsd, by omega⟩⟩
        | some pv =>
          by_cases h3 : iterEndD pv < iterEnd s it
          · simp only [h3, if_pos]
            refine ⟨?_, hn, hc⟩
            intro p hp'
            simp only at hp'
            cases hp'
            exact ⟨⟨s, hsd, by omega⟩, ⟨s, hsd, by omega⟩⟩
          · simp only [h3, if_neg, not_false_iff]
            exact ⟨hp, hn, hc⟩
      · simp only [h1, h2, if_neg, not_false_iff]
        refine ⟨hp, hn, ?_⟩
        intro c hc'
        simp only at hc'
        cases hc'
        exact ⟨s, hsd, by omega, by omega⟩

lemma foldl_considerIteration_good (today : Int) (l : List ProjectIteration)
    (r : RelevantIterations) (h : GoodRelevant today r) :
    GoodRelevant today (l.foldl (considerIteration today) r) := by
  induction l generalizing r with
  | nil => exact h
  | cons x xs ih =>
    exact ih _ (considerIteration_good today r x h)

lemma findRelevantIterations_good (l : List ProjectIteration) (today : Int) :
    GoodRelevant today (FindRelevantIterations l today) := by
  apply foldl_considerIteration_good
  refine ⟨?_, ?_, ?_⟩ <;> intro x hx <;> simp at hx

lemma considerIteration_prev_mono (today : Int) (r : RelevantIterations)
    (it : ProjectIteration) (p : ProjectIteration) (hp : r.previous = some p) :
    ∃ p', (considerIteration today r it).previous = some p' ∧
      iterEndD p ≤ iterEndD p' := by
  unfold considerIteration
  cases hsd : it.startDate with
  | none => exact ⟨p, hp, le_refl _⟩
  | some s =>
    by_cases h1 : today < s
    · simp only [h1, if_pos]
      cases hnx : r.next with
      | none => exact ⟨p, hp, le_refl _⟩
      | some nx =>
        by_cases h2 : s < iterStartD nx
        · simp only [h2, if_pos]
          exact ⟨p, hp, le_refl _⟩
        · simp only [h2, if_neg, not_false_iff]
          exact ⟨p, hp, le_refl _⟩
    · by_cases h2 : ¬ today < iterEnd s it
      · simp only [h1, h2, if_pos, if_neg, not_false_iff]
        cases hpv : r.previous with
        | none => rw [hpv] at hp; cases hp
        | some pv =>
          rw [hpv] at hp
          cases hp
          by_cases h3 : iterEndD p < iterEnd s it
          · simp only [h3, if_pos]
            refine ⟨it, rfl, ?_⟩
            have hd : iterEndD it = iterEnd s it := by simp [iterEndD, hsd]
            omega
          · simp only [h3, if_neg, not_false_iff]
            exact ⟨p, hpv, le_refl _⟩
      · simp only [h1, h2, if_neg, not_false_iff]
        exact ⟨p, hp, le_refl _⟩

lemma considerIteration_prev_cover (today : Int) (r : RelevantIterations)
    (it : ProjectIteration) (hst : startedAt it today) (hel : elapsedAt it today) :
    ∃ p', (considerIteration today r it).previous = some p' ∧
      iterEndD it ≤ iterEndD p' := by
  obtain ⟨s, hsd, hend⟩ := hel
  obtain ⟨s', hsd', hstart⟩ := hst
  rw [hsd] at hsd'
  cases hsd'
  have hitD : iterEndD it = iterEnd s it := by simp [iterEndD, hsd]
  unfold considerIteration
  rw [hsd]
  have h1 : ¬ today < s := by omega
  have h2 : ¬ today < iterEnd s it := by omega
  simp only [h1, h2, if_neg, if_pos, not_false_iff]
  cases hpv : r.previous with
  | none => exact ⟨it, rfl, le_refl _⟩
  | some pv =>
    by_cases h3 : iterEndD pv < iterEnd s it
    · simp only [h3, if_pos]
      exact ⟨it, rfl, le_refl _⟩
    · simp only [h3, if_neg, not_false_iff]
      exact ⟨pv, hpv, by omega⟩

lemma considerIteration_next_mono (today : Int) (r : RelevantIterations)
    (it : ProjectIteration) (n : ProjectIteration) (hn : r.next = some n) :
    ∃ n', (considerIteration today r it).next = some n' ∧
      iterStartD n' ≤ iterStartD n := by
  unfold considerIteration
  cases hsd : it.startDate with
  | none => exact ⟨n, hn, le_refl _⟩
  | some s =>
    by_cases h1 : today < s
    · simp only [h1, if_pos]
      cases hnx : r.next with
      | none => rw [hnx] at hn; cases hn
      | some nx =>
        rw [hnx] at hn
        cases hn
        by_cases h2 : s < iterStartD n
        · simp only [h2, if_pos]
          refine ⟨it, rfl, ?_⟩
          have hd : iterStartD it = s := by simp [iterStartD, hsd]
          omega
        · simp only [h2, if_neg, not_false_iff]
          exact ⟨n, hnx, le_refl _⟩
    · by_cases h2 : ¬ today < iterEnd s it
      · simp only [h1, h2, if_pos, if_neg, not_false_iff]
        cases hpv : r.previous with
        | none => exact ⟨n, hn, le_refl _⟩
        | some pv =>
          by_cases h3 : iterEndD pv < iterEnd s it
          · simp only [h3, if_pos]
            exact ⟨n, hn, le_refl _⟩
          · simp only [h3, if_neg, not_false_iff]
            exact ⟨n, hn, le_refl _⟩
      · simp only [h1, h2, if_neg, not_false_iff]
        exact ⟨n, hn, le_refl _⟩

lemma considerIteration_next_cover (today : Int) (r : RelevantIterations)
    (it : ProjectIteration) (hup : upcomingAt it today) :
    ∃ n', (considerIteration today r it).next = some n' ∧
      iterStartD n' ≤ iterStartD it := by
  obtain ⟨s, hsd, hst⟩ := hup
  have hitD : iterStartD it = s := by simp [iterStartD, hsd]
  unfold considerIteration
  rw [hsd]
  simp only [hst, if_pos]
  cases hnx : r.next with
  | none => exact ⟨it, rfl, le_refl _⟩
  | some nx =>
    by_cases h2 : s < iterStartD nx
    · simp only [h2, if_pos]
      exact ⟨it, rfl, le_refl _⟩
    · simp only [h2, if_neg, not_false_iff]
      exact ⟨nx, hnx, by omega⟩

lemma foldl_prev_max (today : Int) (l : List ProjectIteration) :
    ∀ r : RelevantIterations,
      (∀ p, r.previous = some p →
        ∃ p', (l.foldl (considerIteration today) r).previous = some p' ∧
          iterEndD p ≤ iterEndD p') ∧
      (∀ it ∈ l, startedAt it today → elapsedAt it today →
        ∃ p', (l.foldl (considerIteration today) r).previous = some p' ∧
          iterEndD it ≤ iterEndD p') := by
  induction l with
  | nil =>
    intro r
    refine ⟨fun p hp => ⟨p, hp, le_refl _⟩, ?_⟩
    intro it hit
    simp at hit
  | cons x xs ih =>
    intro r
    constructor
    · intro p hp
      obtain ⟨p1, hp1, hle1⟩ := considerIteration_prev_mono today r x p hp
      obtain ⟨p', hp', hle'⟩ := (ih (considerIteration today r x)).1 p1 hp1
      exact ⟨p', hp', le_trans hle1 hle'⟩
    · intro it hit hst hel
      rcases List.mem_cons.mp hit with heq | hmem
      · subst heq
        obtain ⟨p1, hp1, hle1⟩ := considerIteration_prev_cover today r it hst hel
        obtain ⟨p', hp', hle'⟩ := (ih (considerIteration today r it)).1 p1 hp1
        exact ⟨p', hp', le_trans hle1 hle'⟩
      · exact (ih (considerIteration today r x)).2 it hmem hst hel

lemma foldl_next_min (today : Int) (l : List ProjectIteration) :
    ∀ r : RelevantIterations,
      (∀ n, r.next = some n →
        ∃ n', (l.foldl (considerIteration today) r).next = some n' ∧
          iterStartD n' ≤ iterStartD n) ∧
      (∀ it ∈ l, upcomingAt it today →
        ∃ n', (l.foldl (considerIteration today) r).next = some n' ∧
          iterStartD n' ≤ iterStartD it) := by
  induction l with
  | nil =>
    intro r
    refine ⟨fun n hn => ⟨n, hn, le_refl _⟩, ?_⟩
    intro it hit
    simp at hit
  | cons x xs ih =>
    intro r
    constructor
    · intro n hn
      obtain ⟨n1, hn1, hle1⟩ := considerIteration_next_mono today r x n hn
      obtain ⟨n', hn', hle'⟩ := (ih (considerIteration today r x)).1 n1 hn1
      exact ⟨n', hn', le_trans hle' hle1⟩
    · intro it hit hup
      rcases List.mem_cons.mp hit with heq | hmem
      · subst heq
        obtain ⟨n1, hn1, hle1⟩ := considerIteration_next_cover today r it hup
        obtain ⟨n', hn', hle'⟩ := (ih (considerIteration today r it)).1 n1 hn1
        exact ⟨n', hn', le_trans hle' hle1⟩
      · exact (ih (considerIteration today r x)).2 it hmem hup

lemma considerIteration_current_isSome (today : Int) (r : RelevantIterations)
    (it : ProjectIteration) (h : r.current.isSome) :
    (considerIteration today r it).current.isSome := by
  unfold considerIteration
  cases hsd : it.startDate with
  | none => exact h
  | some s =>
    by_cases h1 : today < s
    · simp only [h1, if_pos]
      cases hnx : r.next with
      | none => exact h
      | some nx =>
        by_cases h2 : s < iterStartD nx
        · simp only [h2, if_pos]
          exact h
        · simp only [h2, if_neg, not_false_iff]
          exact h
    · by_cases h2 : ¬ today < iterEnd s it
      · simp only [h1, h2, if_pos, if_neg, not_false_iff]
        cases hpv : r.previous with
        | none => exact h
        | some pv =>
          by_cases h3 : iterEndD pv < iterEnd s it
          · simp only [h3, if_pos]
            exact h
          · simp only [h3, if_neg, not_false_iff]
            exact h
      · simp only [h1, h2, if_neg, not_false_iff]
        simp

lemma considerIteration_current_set (today : Int) (r : RelevantIterations)
    (it : ProjectIteration) (hcur : currentAt it today) :
    (considerIteration today r it).current.isSome := by
  obtain ⟨s, hsd, hle, hlt⟩ := hcur
  unfold considerIteration
  rw [hsd]
  have h1 : ¬ today < s := by omega
  have h2 : ¬ ¬ today < iterEnd s it := by omega
  simp only [h1, h2, if_neg, not_false_iff]
  simp

lemma foldl_current_isSome (today : Int) (l : List ProjectIteration) :
    ∀ r : RelevantIterations, r.current.isSome →
      (l.foldl (considerIteration today) r).current.isSome := by
  induction l with
  | nil => intro r h; exact h
  | cons x xs ih =>
    intro r h
    exact ih _ (considerIteration_current_isSome today r x h)

lemma foldl_current_cover (today : Int) (l : List ProjectIteration) :
    ∀ r : RelevantIterations, ∀ it ∈ l, currentAt it today →
      (l.foldl (considerIteration today) r).current.isSome := by
  induction l with
  | nil => intro r it hit; simp at hit
  | cons x xs ih =>
    intro r it hit hcur
    rcases List.mem_cons.mp hit with heq | hmem
    · subst heq
      exact foldl_current_isSome today xs _
        (considerIteration_current_set today r it hcur)
    · exact ih _ it hmem hcur

/-- Specification predicate taken from the claim: the previous iteration (if
present) has `end ≤ today` and the maximum end among all iterations whose
window has fully elapsed. -/
def PrevIsMaxElapsed (l : List ProjectIteration) (today : Int) : Prop :=
  ∀ p, (FindRelevantIterations l today).previous = some p →
    ∃ sp, p.startDate = some sp ∧ iterEnd sp p ≤ today ∧
      ∀ it ∈ l, ∀ s, it.startDate = some s → iterEnd s it ≤ today →
        iterEnd s it ≤ iterEnd sp p

/-- Specification predicate taken from the claim: the next iteration (if
present) has `start > today` and the minimum start among all iterations whose
window has not yet started. -/
def NextIsMinUpcoming (l : List ProjectIteration) (today : Int) : Prop :=
  ∀ n, (FindRelevantIterations l today).next = some n →
    ∃ sn, n.startDate = some sn ∧ today < sn ∧
      ∀ it ∈ l, ∀ s, it.startDate = some s → today < s → sn ≤ s

/-- C1 (amended): provided every iteration's duration is nonnegative, the
previous iteration returned by `FindRelevantIterations` (if present) has
`end ≤ today` and the maximum end among all iterations whose window has fully
elapsed, and the next iteration (if present) has `start > today` and the
minimum start among all iterations whose window has not yet started.  (Without
the nonnegativity proviso the maximality half fails, see
`findRelevantIterations_prev_not_max`.) -/
theorem findRelevantIterations_prev_max_next_min
    (l : List ProjectIteration) (today : Int)
    (hd : ∀ it ∈ l, 0 ≤ it.duration) :
    PrevIsMaxElapsed l today ∧ NextIsMinUpcoming l today := by
  have hFRI : FindRelevantIterations l today =
      l.foldl (considerIteration today) ⟨none, none, none⟩ := rfl
  constructor
  · intro p hp
    obtain ⟨⟨sp, hsp, hendp⟩, _⟩ := (findRelevantIterations_good l today).1 p hp
    refine ⟨sp, hsp, hendp, ?_⟩
    intro it hit s hs hend
    have hEit : iterEnd s it = s + 86400 * it.duration := by
      simp [iterEnd, secPerDay]
    have hst : startedAt it today := by
      have hd' := hd it hit
      exact ⟨s, hs, by omega⟩
    obtain ⟨p', hp', hle⟩ :=
      (foldl_prev_max today l ⟨none, none, none⟩).2 it hit hst ⟨s, hs, hend⟩
    rw [← hFRI] at hp'
    rw [hp] at hp'
    cases hp'
    have h1 : iterEndD it = iterEnd s it := by simp [iterEndD, hs]
    have h2 : iterEndD p = iterEnd sp p := by simp [iterEndD, hsp]
    omega
  · intro n hn
    obtain ⟨sn, hsn, hgtn⟩ := (findRelevantIterations_good l today).2.1 n hn
    refine ⟨sn, hsn, hgtn, ?_⟩
    intro it hit s hs hgt
    obtain ⟨n', hn', hle⟩ :=
      (foldl_next_min today l ⟨none, none, none⟩).2 it hit ⟨s, hs, hgt⟩
    rw [← hFRI] at hn'
    rw [hn] at hn'
    cases hn'
    have h1 : iterStartD it = s := by simp [iterStartD, hs]
    have h2 : iterStartD n = sn := by simp [iterStartD, hsn]
    omega

/-- Witness for `findRelevantIterations_prev_max_next_min` at a concrete
input: a single elapsed one-day iteration, reference date two days later. -/
theorem findRelevantIterations_prev_max_next_min_witness :
    (∀ it ∈ [ProjectIteration.mk "w" "w" (some 0) 1], 0 ≤ it.duration) ∧
    (PrevIsMaxElapsed [ProjectIteration.mk "w" "w" (some 0) 1] 172800 ∧
      NextIsMinUpcoming [ProjectIteration.mk "w" "w" (some 0) 1] 172800) :=
  ⟨by decide, findRelevantIterations_prev_max_next_min _ 172800 (by decide)⟩

/-- Counterexample to C1 as stated: with a negative duration, an iteration
whose start is after `today` is classified as next even though its window has
fully elapsed (`end ≤ today`), and its end exceeds the selected previous
iteration's end — so the previous iteration's end is not the maximum end among
all iterations whose window has fully elapsed. -/
theorem findRelevantIterations_prev_not_max :
    (FindRelevantIterations
        [⟨"a", "a", some (-172800), 1⟩, ⟨"b", "b", some 1, -1⟩] 0).previous =
      some ⟨"a", "a", some (-172800), 1⟩ ∧
    elapsedAt ⟨"b", "b", some 1, -1⟩ 0 ∧
    iterEnd (-172800) ⟨"a", "a", some (-172800), 1⟩ <
      iterEnd 1 ⟨"b", "b", some 1, -1⟩ :=
  ⟨by decide, ⟨1, rfl, by decide⟩, by decide⟩

/-- C2: any iteration of the list whose window `[start, start + duration)`
contains the reference date is classified current by `ClassifyIteration`;
`FindRelevantIterations` on such a list has a current iteration, and never
returns that iteration as previous or as next. -/
theorem classifyIteration_current_excluded
    (l : List ProjectIteration) (today : Int) (it : ProjectIteration)
    (hmem : it ∈ l) (hcur : currentAt it today) :
    ClassifyIteration it today = .current ∧
    (FindRelevantIterations l today).current.isSome ∧
    (FindRelevantIterations l today).previous ≠ some it ∧
    (FindRelevantIterations l today).next ≠ some it := by
  obtain ⟨s, hsd, hle, hlt⟩ := hcur
  refine ⟨?_, ?_, ?_, ?_⟩
  · unfold ClassifyIteration
    rw [hsd]
    have h1 : ¬ today < s := by omega
    have h2 : ¬ ¬ today < iterEnd s it := by omega
    simp [h1, h2]
  · exact foldl_current_cover today l _ it hmem ⟨s, hsd, hle, hlt⟩
  · intro hp
    obtain ⟨⟨s', hs', hend⟩, _⟩ := (findRelevantIterations_good l today).1 it hp
    rw [hsd] at hs'
    cases hs'
    omega
  · intro hn
    obtain ⟨s', hs', hsgt⟩ := (findRelevantIterations_good l today).2.1 it hn
    rw [hsd] at hs'
    cases hs'
    omega

/-- Witness for `classifyIteration_current_excluded` at a concrete input. -/
theorem classifyIteration_current_excluded_witness :
    ClassifyIteration ⟨"c", "c", some 0, 1⟩ 0 = .current ∧
    (FindRelevantIterations [⟨"c", "c", some 0, 1⟩] 0).current.isSome ∧
    (FindRelevantIterations [⟨"c", "c", some 0, 1⟩] 0).previous ≠
      some ⟨"c", "c", some 0, 1⟩ ∧
    (FindRelevantIterations [⟨"c", "c", some 0, 1⟩] 0).next ≠
      some ⟨"c", "c", some 0, 1⟩ :=
  classifyIteration_current_excluded _ 0 _ (by decide)
    ⟨0, rfl, by decide, by decide⟩

lemma foldl_considerIteration_filter (today : Int) (l : List ProjectIteration) :
    ∀ r, l.foldl (considerIteration today) r =
      (l.filter fun it => it.startDate.isSome).foldl (considerIteration today) r := by
  induction l with
  | nil => intro r; rfl
  | cons x xs ih =>
    intro r
    cases hsd : x.startDate with
    | none =>
      have hskip : considerIteration today r x = r := by
        unfold considerIteration
        rw [hsd]
      rw [List.foldl_cons, hskip, List.filter_cons]
      simp only [hsd, Option.isSome_none, Bool.false_eq_true, if_false]
      exact ih r
    | some s =>
      have hkeep : x.startDate.isSome = true := by rw [hsd]; rfl
      rw [List.foldl_cons, List.filter_cons]
      simp only [hkeep, if_true]
      rw [List.foldl_cons]
      exact ih _

/-- C3 (amended): an iteration with an unparsable start date is classified as
previous by `ClassifyIteration`, while `FindRelevantIterations` skips it
entirely — the result is the same as on the list with all unparsable
iterations removed, so it is never selected for any of the three slots; in
both functions the unparsable date is handled without failure. -/
theorem unparsable_classified_previous_but_skipped :
    (∀ (it : ProjectIteration) (today : Int), it.startDate = none →
      ClassifyIteration it today = .previous) ∧
    (∀ (l : List ProjectIteration) (today : Int),
      FindRelevantIterations l today =
        FindRelevantIterations (l.filter fun it => it.startDate.isSome) today) := by
  constructor
  · intro it today h
    unfold ClassifyIteration
    rw [h]
  · intro l today
    unfold FindRelevantIterations
    exact foldl_considerIteration_filter today l _

/-- Witness for `unparsable_classified_previous_but_skipped` at a concrete
input. -/
theorem unparsable_classified_previous_witness :
    ClassifyIteration ⟨"y", "y", none, 3⟩ 5 = .previous ∧
    FindRelevantIterations [⟨"y", "y", none, 3⟩] 5 =
      FindRelevantIterations
        (List.filter (fun it => it.startDate.isSome) [⟨"y", "y", none, 3⟩]) 5 :=
  ⟨unparsable_classified_previous_but_skipped.1 _ 5 rfl,
   unparsable_classified_previous_but_skipped.2 _ 5⟩

/-- Counterexample to C3 as stated: an unparsable iteration is not eligible to
be selected as the previous iteration inside `FindRelevantIterations` — it is
skipped, so even as the only iteration of the list it yields no previous
iteration, although `ClassifyIteration` does classify it as previous. -/
theorem unparsable_not_previous_candidate :
    ClassifyIteration ⟨"x", "x", none, 7⟩ 0 = .previous ∧
    (FindRelevantIterations [⟨"x", "x", none, 7⟩] 0).previous = none := by
  decide

/-- Model of the go-github `PullRequest` record as used by this repository
(`src/report/summary.go`): author login (`GetUser().GetLogin()`, `""` when
absent), number, title, raw state string, draft flag, HTML URL, lifecycle
timestamps (`mergedAt`/`closedAt` are nil-able pointers, hence `Option`;
`createdAt` is read through `GetCreatedAt`, which is total), and assignee
logins. -/
structure PullRequest where
  user : String
  number : Int
  title : String
  state : String
  draft : Bool
  htmlURL : String
  createdAt : Int
  mergedAt : Option Int
  closedAt : Option Int
  assignees : List String
deriving DecidableEq, Repr

/-- Model of the go-github `Issue` record as used by this repository:
`isPullRequest` embeds `Issue.IsPullRequest()` (the issues endpoint returns
both kinds). -/
structure Issue where
  user : String
  number : Int
  title : String
  state : String
  htmlURL : String
  createdAt : Int
  closedAt : Option Int
  assignees : List String
  isPullRequest : Bool
deriving DecidableEq, Repr

/-- Model of the go-github `IssueComment` record. -/
structure IssueComment where
  user : String
  createdAt : Int
  issueURL : String
  htmlURL : String
deriving DecidableEq, Repr

/-- Model of the go-github `PullRequestComment` (review comment) record. -/
structure ReviewComment where
  user : String
  createdAt : Int
  pullRequestURL : String
  htmlURL : String
deriving DecidableEq, Repr

/-- Model of the go-github `PullRequestReview` record. -/
structure Review where
  user : String
  state : String
deriving DecidableEq, Repr

/-- Model of `github.ProjectItem` (`src/github/types.go`). -/
structure ProjectItem where
  title : String
  number : Int
  url : String
  state : String
  itemType : String
  iteration : String
  status : String
  assignees : List String
deriving DecidableEq, Repr

/-- Model of `github.Project` (`src/github/types.go`). -/
structure Project where
  title : String
  number : Int
  iterations : List ProjectIteration
  items : List ProjectItem
deriving DecidableEq, Repr

/-- Model of `report.RepoReport` (`src/report/summary.go`).  The Go
`Reviews map[int][]*PullRequestReview` is embedded as a total function with
default `[]`, matching Go map-lookup semantics. -/
structure RepoReport where
  owner : String
  repo : String
  issues : List Issue
  pullRequests : List PullRequest
  issueComments : List IssueComment
  reviewComments : List ReviewComment
  reviews : Int → List Review
  projects : List Project

/-- `owner + "/" + repo` (`fullRepo` in the Go code). -/
def fullRepoOf (rr : RepoReport) : String := rr.owner ++ "/" ++ rr.repo

/-- Go pattern `t != nil && !t.Before(since)` on an optional timestamp. -/
def optNotBefore (t : Option Int) (since : Int) : Bool :=
  match t with
  | some v => decide (¬ v < since)
  | none => false

lemma optNotBefore_iff (t : Option Int) (s : Int) :
    optNotBefore t s = true ↔ ∃ v, t = some v ∧ s ≤ v := by
  cases t with
  | none => simp [optNotBefore]
  | some v => simp [optNotBefore]

/-- Model of `prHasActivitySince` (`src/report/summary.go`): open pull
requests always count; otherwise the pull request counts when it was created,
merged or closed at or after `since`. -/
def prHasActivitySince (pr : PullRequest) (since : Int) : Bool :=
  if pr.state = "open" then true
  else if ¬ pr.createdAt < since then true
  else if optNotBefore pr.mergedAt since then true
  else if optNotBefore pr.closedAt since then true
  else false

/-- Model of `prWorkedSince` (`src/report/summary.go`): the body is the exact
same cascade of checks as `prHasActivitySince`. -/
def prWorkedSince (pr : PullRequest) (since : Int) : Bool :=
  if pr.state = "open" then true
  else if ¬ pr.createdAt < since then true
  else if optNotBefore pr.mergedAt since then true
  else if optNotBefore pr.closedAt since then true
  else false

/-- Model of `issueWorkedSince` (`src/report/summary.go`). -/
def issueWorkedSince (issue : Issue) (since : Int) : Bool :=
  if issue.state = "open" then true
  else if ¬ issue.createdAt < since then true
  else if optNotBefore issue.closedAt since then true
  else false

/-- C4: the pull-request activity predicate returns true exactly when the pull
request is open, or was created at or after the cutoff, or has a merged
timestamp at or after the cutoff, or has a closed timestamp at or after the
cutoff. -/
theorem prHasActivitySince_iff (pr : PullRequest) (since : Int) :
    prHasActivitySince pr since = true ↔
      (pr.state = "open" ∨ since ≤ pr.createdAt ∨
        (∃ m, pr.mergedAt = some m ∧ since ≤ m) ∨
        (∃ c, pr.closedAt = some c ∧ since ≤ c)) := by
  unfold prHasActivitySince
  by_cases h1 : pr.state = "open"
  · simp [h1]
  · rw [if_neg h1]
    by_cases h2 : ¬ pr.createdAt < since
    · rw [if_pos h2]
      exact iff_of_true rfl (Or.inr (Or.inl (by omega)))
    · rw [if_neg h2]
      by_cases h3 : optNotBefore pr.mergedAt since = true
      · rw [if_pos h3]
        exact iff_of_true rfl
          (Or.inr (Or.inr (Or.inl ((optNotBefore_iff _ _).mp h3))))
      · rw [if_neg h3]
        by_cases h4 : optNotBefore pr.closedAt since = true
        · rw [if_pos h4]
          exact iff_of_true rfl
            (Or.inr (Or.inr (Or.inr ((optNotBefore_iff _ _).mp h4))))
        · rw [if_neg h4]
          refine iff_of_false (by simp) ?_
          rintro (h | h | ⟨m, hm, hle⟩ | ⟨c, hc, hle⟩)
          · exact h1 h
          · omega
          · exact h3 ((optNotBefore_iff _ _).mpr ⟨m, hm, hle⟩)
          · exact h4 ((optNotBefore_iff _ _).mpr ⟨c, hc, hle⟩)

/-- C5: the predicate applied by the Fetcher (`prHasActivitySince`) and the
predicate applied by the Synthesizer (`prWorkedSince`) agree on every pull
request and every cutoff. -/
theorem prWorkedSince_eq_prHasActivitySince (pr : PullRequest) (since : Int) :
    prWorkedSince pr since = prHasActivitySince pr since := rfl

/-- Digit run to the natural number it denotes. -/
def digitsToNat (cs : List Char) : Nat :=
  cs.foldl (fun a c => a * 10 + (c.toNat - '0'.toNat)) 0

/-- Model of `strconv.Atoi`: an optional sign followed by one or more decimal
digits (`none` on anything else; the int64 overflow failure is not modelled —
all numbers in this development are small). -/
def atoiOpt (s : String) : Option Int :=
  match s.data with
  | [] => none
  | '+' :: cs =>
    if cs ≠ [] ∧ cs.all Char.isDigit then some (digitsToNat cs : Int) else none
  | '-' :: cs =>
    if cs ≠ [] ∧ cs.all Char.isDigit then some (-(digitsToNat cs : Int)) else none
  | cs => if cs.all Char.isDigit then some (digitsToNat cs : Int) else none

/-- Model of `strings.Split(s, "/")` on character lists. -/
def splitOnSlash : List Char → List (List Char)
  | [] => [[]]
  | c :: rest =>
    if c = '/' then [] :: splitOnSlash rest
    else
      match splitOnSlash rest with
      | [] => [[c]]
      | h :: t => (c :: h) :: t

/-- Model of `extractNumber` (`src/report/summary.go`).  The regular
expression `/(\d+)$` matches exactly when the URL ends with a slash followed
by one or more digits, capturing the digits; otherwise the part after the
last slash is returned when `strconv.Atoi` accepts it, and `"?"` otherwise. -/
def extractNumber (url : String) : String :=
  let rev := url.data.reverse
  let digs := rev.takeWhile Char.isDigit
  let rest := rev.dropWhile Char.isDigit
  if digs ≠ [] ∧ rest.head? = some '/' then String.mk digs.reverse
  else
    let parts := splitOnSlash url.data
    let lastPart := String.mk (parts.getLast?.getD [])
    if (atoiOpt lastPart).isSome then lastPart else "?"

/-- Model of `strings.Contains(s, pat)`: scan for `pat` as a prefix at every
position of `s`. -/
def containsSub (pat : List Char) : List Char → Bool
  | [] => pat.isEmpty
  | c :: rest => pat.isPrefixOf (c :: rest) || containsSub pat rest

/-- String version of `strings.Contains(s, pat)`. -/
def containsSubstrS (s pat : String) : Bool := containsSub pat.data s.data

/-- Model of `strings.ToUpper` (ASCII case mapping; the labels compared in the
source are ASCII). -/
def upperStr (s : String) : String := String.mk (s.data.map Char.toUpper)

/-- Model of `strings.Join(parts, "; ")`. -/
def joinSemicolon : List String → String
  | [] => ""
  | [s] => s
  | s :: rest => s ++ "; " ++ joinSemicolon rest

/-- Model of `prDisplayState` (`src/report/summary.go` output helpers):
`merged` when `MergedAt != nil`, else `draft` when the draft flag is set, else
the raw state. -/
def prDisplayState (pr : PullRequest) : String :=
  if pr.mergedAt.isSome then "merged"
  else if pr.draft then "draft"
  else pr.state

/-- Loop of `buildReviewSummary`: skip pending reviews, deduplicate
`user:state` pairs, collect `@user STATE` parts in order. -/
def reviewSummaryLoop : List Review → List String → List String → List String
  | [], parts, _ => parts
  | r :: rest, parts, seen =>
    if r.state = "PENDING" then reviewSummaryLoop rest parts seen
    else if (r.user ++ ":" ++ r.state) ∈ seen then reviewSummaryLoop rest parts seen
    else
      reviewSummaryLoop rest (parts ++ ["@" ++ r.user ++ " " ++ r.state])
        ((r.user ++ ":" ++ r.state) :: seen)

/-- Model of `buildReviewSummary` (`src/report/summary.go`). -/
def buildReviewSummary (reviews : List Review) : String :=
  if reviews = [] then "" else joinSemicolon (reviewSummaryLoop reviews [] [])

/-- Model of `hasAssignee` (`src/report/summary.go`). -/
def hasAssignee (assignees : List String) (login : String) : Bool :=
  decide (login ∈ assignees)

/-- Model of `containsString` (`src/report/summary.go`). -/
def containsString (ss : List String) (target : String) : Bool :=
  decide (target ∈ ss)

/-- Model of `report.WorkItem` (`src/report/summary.go`); the Go field `Type`
is embedded as `itemType`. -/
structure WorkItem where
  itemType : String
  repo : String
  number : Int
  title : String
  state : String
  url : String
  reviewInfo : String
deriving DecidableEq, Repr

/-- Key `fmt.Sprintf("%s#%d", fullRepo, n)`. -/
def numKey (fullRepo : String) (n : Int) : String := fullRepo ++ "#" ++ toString n

/-- First loop of `extractWorkItems`: record the numbers of the (filtered)
user's pull requests — all of them, regardless of date — for comment/review
suppression.  The Go `map[string]bool` is modelled as a list with membership
lookup. -/
def prAuthorKeysOf (user fullRepo : String) : List PullRequest → List String → List String
  | [], acc => acc
  | pr :: prs, acc =>
    prAuthorKeysOf user fullRepo prs
      (if user ≠ "" ∧ pr.user ≠ user then acc else numKey fullRepo pr.number :: acc)

/-- Second loop of `extractWorkItems`: the user's pull requests worked on
since `today`. -/
def prWorkItems (user fullRepo : String) (today : Int) (rr : RepoReport) :
    List PullRequest → List WorkItem
  | [] => []
  | pr :: prs =>
    if user ≠ "" ∧ pr.user ≠ user then prWorkItems user fullRepo today rr prs
    else if prWorkedSince pr today then
      ⟨"pr", fullRepo, pr.number, pr.title, prDisplayState pr, pr.htmlURL,
        buildReviewSummary (rr.reviews pr.number)⟩ :: prWorkItems user fullRepo today rr prs
    else prWorkItems user fullRepo today rr prs

/-- Third loop of `extractWorkItems`: the user's issues worked on since
`today`, skipping issues assigned exclusively to other users. -/
def issueWorkItems (user fullRepo : String) (today : Int) : List Issue → List WorkItem
  | [] => []
  | issue :: rest =>
    if user ≠ "" ∧ issue.user ≠ user then issueWorkItems user fullRepo today rest
    else if user ≠ "" ∧ issue.assignees ≠ [] ∧ hasAssignee issue.assignees user = false then
      issueWorkItems user fullRepo today rest
    else if issueWorkedSince issue today then
      ⟨"issue", fullRepo, issue.number, issue.title, issue.state, issue.htmlURL, ""⟩
        :: issueWorkItems user fullRepo today rest
    else issueWorkItems user fullRepo today rest

/-- Comment entry built from the extracted number string `s`; Go builds
`Number` with `strconv.Atoi` ignoring the error, yielding 0 on failure. -/
def mkCommentItem (fullRepo s url : String) : WorkItem :=
  ⟨"comment", fullRepo, (atoiOpt s).getD 0, "Commented on #" ++ s, "", url, ""⟩

/-- Review entry built from the extracted number string `s`. -/
def mkReviewItem (fullRepo s url : String) : WorkItem :=
  ⟨"review", fullRepo, (atoiOpt s).getD 0, "Reviewed PR #" ++ s, "", url, ""⟩

/-- Fourth loop of `extractWorkItems`: today's issue comments, at most one per
target key, suppressed on the author-key set. -/
def commentWorkItems (user fullRepo : String) (today : Int)
    (authorKeys : List String) : List IssueComment → List String → List WorkItem
  | [], _ => []
  | c :: cs, seen =>
    if user ≠ "" ∧ c.user ≠ user then
      commentWorkItems user fullRepo today authorKeys cs seen
    else if c.createdAt < today then
      commentWorkItems user fullRepo today authorKeys cs seen
    else if (fullRepo ++ "#" ++ extractNumber c.issueURL) ∈ authorKeys then
      commentWorkItems user fullRepo today authorKeys cs seen
    else if (fullRepo ++ "#" ++ extractNumber c.issueURL) ∈ seen then
      commentWorkItems user fullRepo today authorKeys cs seen
    else
      mkCommentItem fullRepo (extractNumber c.issueURL) c.htmlURL ::
        commentWorkItems user fullRepo today authorKeys cs
          ((fullRepo ++ "#" ++ extractNumber c.issueURL) :: seen)

/-- Fifth loop of `extractWorkItems`: today's review comments, at most one per
pull-request key, suppressed on the author-key set. -/
def reviewWorkItems (user fullRepo : String) (today : Int)
    (authorKeys : List String) : List ReviewComment → List String → List WorkItem
  | [], _ => []
  | c :: cs, seen =>
    if user ≠ "" ∧ c.user ≠ user then
      reviewWorkItems user fullRepo today authorKeys cs seen
    else if c.createdAt < today then
      reviewWorkItems user fullRepo today authorKeys cs seen
    else if (fullRepo ++ "#" ++ extractNumber c.pullRequestURL) ∈ authorKeys then
      reviewWorkItems user fullRepo today authorKeys cs seen
    else if (fullRepo ++ "#" ++ extractNumber c.pullRequestURL) ∈ seen then
      reviewWorkItems user fullRepo today authorKeys cs seen
    else
      mkReviewItem fullRepo (extractNumber c.pullRequestURL) c.htmlURL ::
        reviewWorkItems user fullRepo today authorKeys cs
          ((fullRepo ++ "#" ++ extractNumber c.pullRequestURL) :: seen)

/-- Per-repository spine of `extractWorkItems`: items are appended in loop
order (pull requests, issues, comments, reviews), while the author-key set
accumulates across repositories exactly as the Go map does. -/
def extractWorkItemsAux (user : String) (today : Int) :
    List String → List RepoReport → List WorkItem
  | _, [] => []
  | prAuthorKeys, rr :: rest =>
    prWorkItems user (fullRepoOf rr) today rr rr.pullRequests ++
      issueWorkItems user (fullRepoOf rr) today rr.issues ++
      commentWorkItems user (fullRepoOf rr) today
        (prAuthorKeysOf user (fullRepoOf rr) rr.pullRequests prAuthorKeys)
        rr.issueComments [] ++
      reviewWorkItems user (fullRepoOf rr) today
        (prAuthorKeysOf user (fullRepoOf rr) rr.pullRequests prAuthorKeys)
        rr.reviewComments [] ++
      extractWorkItemsAux user today
        (prAuthorKeysOf user (fullRepoOf rr) rr.pullRequests prAuthorKeys) rest

/-- Model of `extractWorkItems` (`src/report/summary.go`).  The Go function
reads `today` from the wall clock (`time.Now()` truncated to local midnight);
here that value is a parameter. -/
def extractWorkItems (reports : List RepoReport) (user : String) (today : Int) :
    List WorkItem :=
  extractWorkItemsAux user today [] reports

/-- Model of `report.PlanItem` (`src/report/summary.go`). -/
structure PlanItem where
  repo : String
  number : Int
  title : String
  url : String
  status : String
  source : String
deriving DecidableEq, Repr

/-- Dedup key of a plan entry (`fmt.Sprintf("%s#%d", item.Repo, item.Number)`). -/
def planItemKey (p : PlanItem) : String := p.repo ++ "#" ++ toString p.number

/-- Source-A loop body of `extractPlanItems` for one pull request: the user
filter, the assignee filter, the merged/closed filter, then dedup against
`seen` and append. -/
def planAStep (user fullRepo : String) (st : List PlanItem × List String)
    (pr : PullRequest) : List PlanItem × List String :=
  if user ≠ "" ∧ pr.user ≠ user then st
  else if user ≠ "" ∧ pr.assignees ≠ [] ∧ hasAssignee pr.assignees user = false then st
  else if prDisplayState pr = "merged" ∨ prDisplayState pr = "closed" then st
  else if numKey fullRepo pr.number ∈ st.2 then st
  else (st.1 ++ [⟨fullRepo, pr.number, pr.title, pr.htmlURL, "", "open_pr"⟩],
        numKey fullRepo pr.number :: st.2)

/-- Source-A loop of `extractPlanItems` over one repository's pull requests,
threading the `(items, seen)` state. -/
def planAPRs (user fullRepo : String) :
    List PullRequest → List PlanItem × List String → List PlanItem × List String
  | [], st => st
  | pr :: prs, st => planAPRs user fullRepo prs (planAStep user fullRepo st pr)

/-- Source A of `extractPlanItems` over all repositories. -/
def planAReports (user : String) :
    List RepoReport → List PlanItem × List String → List PlanItem × List String
  | [], st => st
  | rr :: rest, st =>
    planAReports user rest (planAPRs user (fullRepoOf rr) rr.pullRequests st)

/-- Status back-fill for a Source-B hit on an already-seen key: set the status
of every entry with this key whose status is still empty. -/
def backfillStatus (items : List PlanItem) (key status : String) : List PlanItem :=
  items.map fun p =>
    if planItemKey p = key ∧ p.status = "" then { p with status := status } else p

/-- Source-B loop of `extractPlanItems` over one project's items: keep items
of the current iteration, in this repository, assigned to the user (when
set), not finished (`DONE` status or `CLOSED`/`MERGED` state); deduplicate
against `seen`, back-filling the status on a collision. -/
def planBStep (user fullRepo curTitle : String) (st : List PlanItem × List String)
    (item : ProjectItem) : List PlanItem × List String :=
  if item.iteration ≠ curTitle then st
  else if containsSubstrS item.url fullRepo = false then st
  else if user ≠ "" ∧ containsString item.assignees user = false then st
  else if upperStr item.status = "DONE" ∨ upperStr item.state = "CLOSED" ∨
      upperStr item.state = "MERGED" then st
  else if numKey fullRepo item.number ∈ st.2 then
    (backfillStatus st.1 (numKey fullRepo item.number) item.status, st.2)
  else (st.1 ++ [⟨fullRepo, item.number, item.title, item.url, item.status,
          "project_item"⟩],
        numKey fullRepo item.number :: st.2)

def planBItems (user fullRepo curTitle : String) :
    List ProjectItem → List PlanItem × List String → List PlanItem × List String
  | [], st => st
  | item :: rest, st =>
    planBItems user fullRepo curTitle rest (planBStep user fullRepo curTitle st item)

/-- Source B of `extractPlanItems` over one repository's projects: a
project's items are considered only when the project has a current
iteration. -/
def planBProjects (user fullRepo : String) (today : Int) :
    List Project → List PlanItem × List String → List PlanItem × List String
  | [], st => st
  | pj :: pjs, st =>
    planBProjects user fullRepo today pjs
      (match (FindRelevantIterations pj.iterations today).current with
       | none => st
       | some cur => planBItems user fullRepo cur.title pj.items st)

/-- Source B of `extractPlanItems` over all repositories. -/
def planBReports (user : String) (today : Int) :
    List RepoReport → List PlanItem × List String → List PlanItem × List String
  | [], st => st
  | rr :: rest, st =>
    planBReports user today rest (planBProjects user (fullRepoOf rr) today rr.projects st)

/-- Model of `extractPlanItems` (`src/report/summary.go`): open pull requests
first (Source A), then unfinished current-iteration project items (Source B),
deduplicated by `owner/repo#number` through the shared `seen` set, with
status back-fill on Source-A/Source-B key collisions.  The Go function reads
the wall clock; the iteration classification receives `today` here. -/
def extractPlanItems (reports : List RepoReport) (user : String) (today : Int) :
    List PlanItem :=
  (planBReports user today reports (planAReports user reports ([], []))).1

/-- Abstract data-source capability (the `github.Client` operations used by
the collector); each operation deterministically returns a result or an error
message. -/
structure Client where
  listIssues : String → String → Int → Except String (List Issue)
  listPullRequests : String → String → Int → Except String (List PullRequest)
  listIssueComments : String → String → Int → Except String (List IssueComment)
  listReviewComments : String → String → Int → Except String (List ReviewComment)
  listReviews : String → String → Int → Except String (List Review)
  listProjects : String → Except String (List Project)

/-- Model of `report.Options` (`src/report/summary.go`). -/
structure Options where
  repos : List String
  days : Int
  user : String

/-- Model of `strings.SplitN(s, "/", 2)` as used by `Collect` to parse
`owner/repo`: split at the first slash, `none` when there is no slash
(`len(parts) != 2` in Go). -/
def splitFirstSlash : List Char → Option (List Char × List Char)
  | [] => none
  | c :: rest =>
    if c = '/' then some ([], rest)
    else (splitFirstSlash rest).map fun p => (c :: p.1, p.2)

/-- Repo-list parsing loop of `Collect`: the first malformed `owner/repo`
entry aborts with Go's `invalid repo format %q, expected owner/repo` error. -/
def parseRepos : List String → Except String (List (String × String))
  | [] => .ok []
  | full :: rest =>
    match splitFirstSlash full.data with
    | none => .error ("invalid repo format \"" ++ full ++ "\", expected owner/repo")
    | some (o, r) =>
      match parseRepos rest with
      | .error e => .error e
      | .ok tl => .ok ((String.mk o, String.mk r) :: tl)

/-- Tier-3 loop of `collectRepo`: fetch each pull request's reviews; the
first failure in pull-request order aborts with Go's
`listing reviews for owner/repo#n` context (Go launches all fetches, joins,
then checks the error slots in index order — same first error). -/
def collectReviews (client : Client) (owner repo : String) :
    List PullRequest → Except String (List (Int × List Review))
  | [] => .ok []
  | pr :: prs =>
    match client.listReviews owner repo pr.number with
    | .error e =>
      .error ("listing reviews for " ++ owner ++ "/" ++ repo ++ "#" ++
        toString pr.number ++ ": " ++ e)
    | .ok res =>
      match collectReviews client owner repo prs with
      | .error e => .error e
      | .ok rest => .ok ((pr.number, res) :: rest)

/-- Fill the `Reviews` map: Go stores `rr.Reviews[n]` only when the fetched
list is non-empty; lookups default to `[]` either way. -/
def addReviews : (Int → List Review) → List (Int × List Review) → (Int → List Review)
  | f, [] => f
  | f, (n, res) :: rest =>
    addReviews (if res = [] then f else fun m => if m = n then res else f m) rest

/-- Issue filter of `collectRepo`: drop pull requests returned by the issues
endpoint, keep the filtered user's issues. -/
def filterIssues (user : String) (issues : List Issue) : List Issue :=
  issues.filter fun issue => !issue.isPullRequest && (user == "" || issue.user == user)

/-- Pull-request filter of `collectRepo`: the user filter plus the
activity-since pruning at the coarse lookback cutoff. -/
def filterPRs (user : String) (since : Int) (prs : List PullRequest) : List PullRequest :=
  prs.filter fun pr => !(user != "" && pr.user != user) && prHasActivitySince pr since

/-- Issue-comment filter of `collectRepo`. -/
def filterIssueComments (user : String) (cs : List IssueComment) : List IssueComment :=
  cs.filter fun c => user == "" || c.user == user

/-- Review-comment filter of `collectRepo`. -/
def filterReviewComments (user : String) (cs : List ReviewComment) : List ReviewComment :=
  cs.filter fun c => user == "" || c.user == user

/-- Model of `collectRepo` (`src/report/summary.go`): run the four tier-2
retrievals, check their errors in source order with repository/operation
context, apply the local filters, then fetch reviews (tier 3).  Go runs the
four retrievals concurrently and joins before the error checks; the joined
outcome is a deterministic function of the client's responses, which is what
is modelled. -/
def collectRepo (client : Client) (owner repo : String) (since : Int)
    (user : String) : Except String RepoReport :=
  match client.listIssues owner repo since with
  | .error e => .error ("listing issues for " ++ owner ++ "/" ++ repo ++ ": " ++ e)
  | .ok rawIssues =>
  match client.listPullRequests owner repo since with
  | .error e => .error ("listing PRs for " ++ owner ++ "/" ++ repo ++ ": " ++ e)
  | .ok rawPRs =>
  match client.listIssueComments owner repo since with
  | .error e => .error ("listing issue comments for " ++ owner ++ "/" ++ repo ++ ": " ++ e)
  | .ok rawComments =>
  match client.listReviewComments owner repo since with
  | .error e => .error ("listing review comments for " ++ owner ++ "/" ++ repo ++ ": " ++ e)
  | .ok rawRevComments =>
  match collectReviews client owner repo (filterPRs user since rawPRs) with
  | .error e => .error e
  | .ok revs =>
    .ok ⟨owner, repo, filterIssues user rawIssues, filterPRs user since rawPRs,
      filterIssueComments user rawComments, filterReviewComments user rawRevComments,
      addReviews (fun _ => []) revs, []⟩

/-- Organization project lookup with warning-recovery: a failed project fetch
yields an empty list (`Collect` logs a warning and stores nil). -/
def orgProjectsOf (client : Client) (owner : String) : List Project :=
  match client.listProjects owner with
  | .error _ => []
  | .ok ps => ps

/-- Per-repository collection: the first error in repository order wins,
matching the Go scan of the `repoErrs` slots after the join barrier. -/
def collectRepos (client : Client) (since : Int) (user : String) :
    List (String × String) → Except String (List RepoReport)
  | [] => .ok []
  | (o, r) :: rest =>
    match collectRepo client o r since user with
    | .error e => .error e
    | .ok rr =>
      match collectRepos client since user rest with
      | .error e => .error e
      | .ok tl => .ok (rr :: tl)

/-- Model of `Collect` (`src/report/summary.go`): parse the repository list,
collect every repository all-or-nothing, then associate each organization's
projects by owner.  `now` is the wall-clock instant;
`since := now.AddDate(0, 0, -opts.days)`. -/
def Collect (client : Client) (opts : Options) (now : Int) :
    Except String (List RepoReport) :=
  match parseRepos opts.repos with
  | .error e => .error e
  | .ok repos =>
    match collectRepos client (now - secPerDay * opts.days) opts.user repos with
    | .error e => .error e
    | .ok reports =>
      .ok (reports.map fun rr => { rr with projects := orgProjectsOf client rr.owner })

lemma strAppend_cancel_left {a b c : String} (h : a ++ b = a ++ c) : b = c := by
  have h2 := congrArg String.data h
  simp only [String.data_append] at h2
  exact String.ext (List.append_cancel_left h2)

/-- A string that is the canonical decimal representation of the integer
`strconv.Atoi` parses from it. -/
def canonicalNumStr (s : String) : Bool :=
  match atoiOpt s with
  | some n => toString n == s
  | none => false

lemma canonicalNumStr_toString {s : String} {n : Int}
    (h : canonicalNumStr s = true) (hn : (atoiOpt s).getD 0 = n) :
    s = toString n := by
  unfold canonicalNumStr at h
  cases ha : atoiOpt s with
  | none => rw [ha] at h; simp at h
  | some m =>
    rw [ha] at h
    simp only [beq_iff_eq] at h
    rw [ha] at hn
    simp only [Option.getD_some] at hn
    rw [← h, hn]

lemma pairwise_of_mem_rel {α : Type} {R : α → α → Prop} :
    ∀ {l : List α}, (∀ a ∈ l, ∀ b ∈ l, R a b) → l.Pairwise R := by
  intro l
  induction l with
  | nil => intro _; exact List.Pairwise.nil
  | cons x xs ih =>
    intro h
    refine List.Pairwise.cons ?_ (ih ?_)
    · intro b hb
      exact h x (List.mem_cons_self _ _) b (List.mem_cons_of_mem _ hb)
    · intro a ha b hb
      exact h a (List.mem_cons_of_mem _ ha) b (List.mem_cons_of_mem _ hb)

lemma prAuthorKeysOf_acc_sub {u R : String} :
    ∀ {prs : List PullRequest} {acc : List String} {k : String},
      k ∈ acc → k ∈ prAuthorKeysOf u R prs acc := by
  intro prs
  induction prs with
  | nil => intro acc k h; exact h
  | cons q qs ih =>
    intro acc k h
    unfold prAuthorKeysOf
    by_cases hq : u ≠ "" ∧ q.user ≠ u
    · rw [if_pos hq]; exact ih h
    · rw [if_neg hq]; exact ih (List.mem_cons_of_mem _ h)

lemma mem_prAuthorKeysOf {u R : String} :
    ∀ {prs : List PullRequest} {acc : List String} {pr : PullRequest},
      pr ∈ prs → ¬ (u ≠ "" ∧ pr.user ≠ u) →
      numKey R pr.number ∈ prAuthorKeysOf u R prs acc := by
  intro prs
  induction prs with
  | nil => intro acc pr h; simp at h
  | cons q qs ih =>
    intro acc pr hmem hq
    rcases List.mem_cons.mp hmem with heq | hmem'
    · subst heq
      unfold prAuthorKeysOf
      rw [if_neg hq]
      exact prAuthorKeysOf_acc_sub (List.mem_cons_self _ _)
    · unfold prAuthorKeysOf
      by_cases hg : u ≠ "" ∧ q.user ≠ u
      · rw [if_pos hg]; exact ih hmem' hq
      · rw [if_neg hg]; exact ih hmem' hq

lemma mem_prWorkItems {u R : String} {t : Int} {rr : RepoReport} :
    ∀ {prs : List PullRequest} {w : WorkItem}, w ∈ prWorkItems u R t rr prs →
      w.itemType = "pr" ∧ w.repo = R := by
  intro prs
  induction prs with
  | nil => intro w hw; simp [prWorkItems] at hw
  | cons pr qs ih =>
    intro w hw
    unfold prWorkItems at hw
    split_ifs at hw
    · exact ih hw
    · rcases List.mem_cons.mp hw with heq | hw'
      · subst heq; exact ⟨rfl, rfl⟩
      · exact ih hw'
    · exact ih hw

lemma mem_issueWorkItems {u R : String} {t : Int} :
    ∀ {issues : List Issue} {w : WorkItem}, w ∈ issueWorkItems u R t issues →
      w.itemType = "issue" ∧ w.repo = R := by
  intro issues
  induction issues with
  | nil => intro w hw; simp [issueWorkItems] at hw
  | cons i is ih =>
    intro w hw
    unfold issueWorkItems at hw
    split_ifs at hw
    · exact ih hw
    · exact ih hw
    · rcases List.mem_cons.mp hw with heq | hw'
      · subst heq; exact ⟨rfl, rfl⟩
      · exact ih hw'
    · exact ih hw

lemma mem_commentWorkItems {u R : String} {t : Int} {ks : List String} :
    ∀ {cs : List IssueComment} {seen : List String} {w : WorkItem},
      w ∈ commentWorkItems u R t ks cs seen →
      ∃ c ∈ cs, w = mkCommentItem R (extractNumber c.issueURL) c.htmlURL ∧
        (R ++ "#" ++ extractNumber c.issueURL) ∉ ks ∧
        (R ++ "#" ++ extractNumber c.issueURL) ∉ seen := by
  intro cs
  induction cs with
  | nil => intro seen w hw; simp [commentWorkItems] at hw
  | cons c cs ih =>
    intro seen w hw
    unfold commentWorkItems at hw
    split_ifs at hw with h1 h2 h3 h4
    · obtain ⟨c', hc', hrest⟩ := ih hw
      exact ⟨c', List.mem_cons_of_mem _ hc', hrest⟩
    · obtain ⟨c', hc', hrest⟩ := ih hw
      exact ⟨c', List.mem_cons_of_mem _ hc', hrest⟩
    · obtain ⟨c', hc', hrest⟩ := ih hw
      exact ⟨c', List.mem_cons_of_mem _ hc', hrest⟩
    · obtain ⟨c', hc', hrest⟩ := ih hw
      exact ⟨c', List.mem_cons_of_mem _ hc', hrest⟩
    · rcases List.mem_cons.mp hw with heq | hw'
      · subst heq
        exact ⟨c, List.mem_cons_self _ _, rfl, h3, h4⟩
      · obtain ⟨c', hc', hshape, hks, hseen⟩ := ih hw'
        refine ⟨c', List.mem_cons_of_mem _ hc', hshape, hks, fun hmem => ?_⟩
        exact hseen (List.mem_cons_of_mem _ hmem)

lemma commentWorkItems_pairwise {u R : String} {t : Int} {ks : List String} :
    ∀ {cs : List IssueComment} {seen : List String},
      (commentWorkItems u R t ks cs seen).Pairwise
        (fun a b => a.title ≠ b.title) := by
  intro cs
  induction cs with
  | nil => intro seen; simp [commentWorkItems]
  | cons c cs ih =>
    intro seen
    unfold commentWorkItems
    split_ifs with h1 h2 h3 h4
    · exact ih
    · exact ih
    · exact ih
    · exact ih
    · refine List.Pairwise.cons ?_ ih
      intro b hb htit
      obtain ⟨c', _, hshape, _, hseen⟩ := mem_commentWorkItems hb
      apply hseen
      rw [hshape] at htit
      have hs : extractNumber c.issueURL = extractNumber c'.issueURL :=
        strAppend_cancel_left htit
      rw [← hs]
      exact List.mem_cons_self _ _

lemma mem_reviewWorkItems {u R : String} {t : Int} {ks : List String} :
    ∀ {cs : List ReviewComment} {seen : List String} {w : WorkItem},
      w ∈ reviewWorkItems u R t ks cs seen →
      ∃ c ∈ cs, w = mkReviewItem R (extractNumber c.pullRequestURL) c.htmlURL ∧
        (R ++ "#" ++ extractNumber c.pullRequestURL) ∉ ks ∧
        (R ++ "#" ++ extractNumber c.pullRequestURL) ∉ seen := by
  intro cs
  induction cs with
  | nil => intro seen w hw; simp [reviewWorkItems] at hw
  | cons c cs ih =>
    intro seen w hw
    unfold reviewWorkItems at hw
    split_ifs at hw with h1 h2 h3 h4
    · obtain ⟨c', hc', hrest⟩ := ih hw
      exact ⟨c', List.mem_cons_of_mem _ hc', hrest⟩
    · obtain ⟨c', hc', hrest⟩ := ih hw
      exact ⟨c', List.mem_cons_of_mem _ hc', hrest⟩
    · obtain ⟨c', hc', hrest⟩ := ih hw
      exact ⟨c', List.mem_cons_of_mem _ hc', hrest⟩
    · obtain ⟨c', hc', hrest⟩ := ih hw
      exact ⟨c', List.mem_cons_of_mem _ hc', hrest⟩
    · rcases List.mem_cons.mp hw with heq | hw'
      · subst heq
        exact ⟨c, List.mem_cons_self _ _, rfl, h3, h4⟩
      · obtain ⟨c', hc', hshape, hks, hseen⟩ := ih hw'
        refine ⟨c', List.mem_cons_of_mem _ hc', hshape, hks, fun hmem => ?_⟩
        exact hseen (List.mem_cons_of_mem _ hmem)

lemma reviewWorkItems_pairwise {u R : String} {t : Int} {ks : List String} :
    ∀ {cs : List ReviewComment} {seen : List String},
      (reviewWorkItems u R t ks cs seen).Pairwise
        (fun a b => a.title ≠ b.title) := by
  intro cs
  induction cs with
  | nil => intro seen; simp [reviewWorkItems]
  | cons c cs ih =>
    intro seen
    unfold reviewWorkItems
    split_ifs with h1 h2 h3 h4
    · exact ih
    · exact ih
    · exact ih
    · exact ih
    · refine List.Pairwise.cons ?_ ih
      intro b hb htit
      obtain ⟨c', _, hshape, _, hseen⟩ := mem_reviewWorkItems hb
      apply hseen
      rw [hshape] at htit
      have hs : extractNumber c.pullRequestURL = extractNumber c'.pullRequestURL :=
        strAppend_cancel_left htit
      rw [← hs]
      exact List.mem_cons_self _ _

lemma extractWorkItemsAux_repo {u : String} {t : Int} :
    ∀ {l : List RepoReport} {ks : List String} {w : WorkItem},
      w ∈ extractWorkItemsAux u t ks l → w.repo ∈ l.map fullRepoOf := by
  intro l
  induction l with
  | nil => intro ks w hw; simp [extractWorkItemsAux] at hw
  | cons rr0 rest ih =>
    intro ks w hw
    unfold extractWorkItemsAux at hw
    simp only [List.mem_append] at hw
    rw [List.map_cons]
    rcases hw with ((((h | h) | h) | h) | h)
    · exact List.mem_cons.mpr (Or.inl (mem_prWorkItems h).2)
    · exact List.mem_cons.mpr (Or.inl (mem_issueWorkItems h).2)
    · obtain ⟨c, _, hshape, _, _⟩ := mem_commentWorkItems h
      rw [hshape]
      exact List.mem_cons.mpr (Or.inl rfl)
    · obtain ⟨c, _, hshape, _, _⟩ := mem_reviewWorkItems h
      rw [hshape]
      exact List.mem_cons.mpr (Or.inl rfl)
    · exact List.mem_cons_of_mem _ (ih h)

lemma extractWorkItemsAux_suppression {u : String} {t : Int} :
    ∀ {l : List RepoReport} {ks : List String} {w : WorkItem},
      (l.map fullRepoOf).Nodup →
      (∀ rr ∈ l,
        (∀ c ∈ rr.issueComments, canonicalNumStr (extractNumber c.issueURL) = true) ∧
        (∀ c ∈ rr.reviewComments,
          canonicalNumStr (extractNumber c.pullRequestURL) = true)) →
      w ∈ extractWorkItemsAux u t ks l →
      (w.itemType = "comment" ∨ w.itemType = "review") →
      ∀ rr ∈ l, fullRepoOf rr = w.repo →
      ∀ pr ∈ rr.pullRequests, ¬ (u ≠ "" ∧ pr.user ≠ u) → w.number ≠ pr.number := by
  intro l
  induction l with
  | nil => intro ks w _ _ hw; simp [extractWorkItemsAux] at hw
  | cons rr0 rest ih =>
    intro ks w hnd hcanon hw hkind rr hrr hrepo pr hpr hguard heq
    rw [List.map_cons, List.nodup_cons] at hnd
    obtain ⟨hnd0, hndrest⟩ := hnd
    unfold extractWorkItemsAux at hw
    simp only [List.mem_append] at hw
    have hcanonrest : ∀ rr' ∈ rest,
        (∀ c ∈ rr'.issueComments, canonicalNumStr (extractNumber c.issueURL) = true) ∧
        (∀ c ∈ rr'.reviewComments,
          canonicalNumStr (extractNumber c.pullRequestURL) = true) :=
      fun rr' hm => hcanon rr' (List.mem_cons_of_mem _ hm)
    rcases hw with ((((h | h) | h) | h) | h)
    · rcases hkind with hk | hk <;>
        exact absurd ((mem_prWorkItems h).1.symm.trans hk) (by decide)
    · rcases hkind with hk | hk <;>
        exact absurd ((mem_issueWorkItems h).1.symm.trans hk) (by decide)
    · obtain ⟨c, hc, hshape, hks, _⟩ := mem_commentWorkItems h
      have hwr : w.repo = fullRepoOf rr0 := by rw [hshape]; rfl
      rcases List.mem_cons.mp hrr with hrr0 | hrrrest
      · subst hrr0
        have hcan := (hcanon rr (List.mem_cons_self _ _)).1 c hc
        have hwn : w.number = (atoiOpt (extractNumber c.issueURL)).getD 0 := by
          rw [hshape]; exact rfl
        have hs : extractNumber c.issueURL = toString pr.number :=
          canonicalNumStr_toString hcan (by rw [← hwn, heq])
        apply hks
        have : fullRepoOf rr ++ "#" ++ extractNumber c.issueURL =
            numKey (fullRepoOf rr) pr.number := by
          rw [hs]; rfl
        rw [this]
        exact mem_prAuthorKeysOf hpr hguard
      · apply hnd0
        have : fullRepoOf rr ∈ rest.map fullRepoOf := List.mem_map_of_mem _ hrrrest
        rw [hrepo, hwr] at this
        exact this
    · obtain ⟨c, hc, hshape, hks, _⟩ := mem_reviewWorkItems h
      have hwr : w.repo = fullRepoOf rr0 := by rw [hshape]; rfl
      rcases List.mem_cons.mp hrr with hrr0 | hrrrest
      · subst hrr0
        have hcan := (hcanon rr (List.mem_cons_self _ _)).2 c hc
        have hwn : w.number = (atoiOpt (extractNumber c.pullRequestURL)).getD 0 := by
          rw [hshape]; exact rfl
        have hs : extractNumber c.pullRequestURL = toString pr.number :=
          canonicalNumStr_toString hcan (by rw [← hwn, heq])
        apply hks
        have : fullRepoOf rr ++ "#" ++ extractNumber c.pullRequestURL =
            numKey (fullRepoOf rr) pr.number := by
          rw [hs]; rfl
        rw [this]
        exact mem_prAuthorKeysOf hpr hguard
      · apply hnd0
        have : fullRepoOf rr ∈ rest.map fullRepoOf := List.mem_map_of_mem _ hrrrest
        rw [hrepo, hwr] at this
        exact this
    · rcases List.mem_cons.mp hrr with hrr0 | hrrrest
      · apply hnd0
        have := extractWorkItemsAux_repo h
        rw [← hrepo] at this
        rw [hrr0] at this
        exact this
      · exact ih hndrest hcanonrest h hkind rr hrrrest hrepo pr hpr hguard heq

/-- Relation asserted pairwise over the work-item output: no two comment
entries and no two review entries share a `(repo, number)` pair. -/
def WorkDistinct (a b : WorkItem) : Prop :=
  (a.itemType = "comment" → b.itemType = "comment" → a.repo = b.repo →
    a.number ≠ b.number) ∧
  (a.itemType = "review" → b.itemType = "review" → a.repo = b.repo →
    a.number ≠ b.number)

lemma workDistinct_of_types {a b : WorkItem}
    (hc : a.itemType ≠ "comment" ∨ b.itemType ≠ "comment")
    (hr : a.itemType ≠ "review" ∨ b.itemType ≠ "review") : WorkDistinct a b := by
  constructor
  · intro h1 h2 _
    rcases hc with h | h
    · exact absurd h1 h
    · exact absurd h2 h
  · intro h1 h2 _
    rcases hr with h | h
    · exact absurd h1 h
    · exact absurd h2 h

lemma workDistinct_of_repo {a b : WorkItem} (h : a.repo ≠ b.repo) :
    WorkDistinct a b :=
  ⟨fun _ _ hr => absurd hr h, fun _ _ hr => absurd hr h⟩

lemma workDistinct_of_pr {a b : WorkItem} (h : a.itemType = "pr") :
    WorkDistinct a b :=
  workDistinct_of_types (Or.inl (by rw [h]; decide)) (Or.inl (by rw [h]; decide))

lemma workDistinct_of_issue {a b : WorkItem} (h : a.itemType = "issue") :
    WorkDistinct a b :=
  workDistinct_of_types (Or.inl (by rw [h]; decide)) (Or.inl (by rw [h]; decide))

lemma comment_batch_distinct {u R : String} {t : Int} {ks : List String}
    {cs : List IssueComment} {seen : List String}
    (hcanon : ∀ c ∈ cs, canonicalNumStr (extractNumber c.issueURL) = true) :
    (commentWorkItems u R t ks cs seen).Pairwise WorkDistinct := by
  refine List.Pairwise.imp_of_mem ?_ commentWorkItems_pairwise
  intro a b ha hb htit
  obtain ⟨ca, hca, hsa, _, _⟩ := mem_commentWorkItems ha
  obtain ⟨cb, hcb, hsb, _, _⟩ := mem_commentWorkItems hb
  constructor
  · intro _ _ _ hnum
    apply htit
    have hna := hcanon ca hca
    have hnb := hcanon cb hcb
    have ha' : extractNumber ca.issueURL =
        toString ((atoiOpt (extractNumber ca.issueURL)).getD 0) :=
      canonicalNumStr_toString hna rfl
    have hb' : extractNumber cb.issueURL =
        toString ((atoiOpt (extractNumber cb.issueURL)).getD 0) :=
      canonicalNumStr_toString hnb rfl
    have hnn : (atoiOpt (extractNumber ca.issueURL)).getD 0 =
        (atoiOpt (extractNumber cb.issueURL)).getD 0 := by
      rw [hsa, hsb] at hnum
      exact hnum
    rw [hsa, hsb]
    show "Commented on #" ++ extractNumber ca.issueURL =
      "Commented on #" ++ extractNumber cb.issueURL
    rw [ha', hb', hnn]
  · intro hrev _ _
    rw [hsa] at hrev
    exact absurd (show ("comment" : String) = "review" from hrev) (by decide)

lemma review_batch_distinct {u R : String} {t : Int} {ks : List String}
    {cs : List ReviewComment} {seen : List String}
    (hcanon : ∀ c ∈ cs, canonicalNumStr (extractNumber c.pullRequestURL) = true) :
    (reviewWorkItems u R t ks cs seen).Pairwise WorkDistinct := by
  refine List.Pairwise.imp_of_mem ?_ reviewWorkItems_pairwise
  intro a b ha hb htit
  obtain ⟨ca, hca, hsa, _, _⟩ := mem_reviewWorkItems ha
  obtain ⟨cb, hcb, hsb, _, _⟩ := mem_reviewWorkItems hb
  constructor
  · intro hcom _ _
    rw [hsa] at hcom
    exact absurd (show ("review" : String) = "comment" from hcom) (by decide)
  · intro _ _ _ hnum
    apply htit
    have hna := hcanon ca hca
    have hnb := hcanon cb hcb
    have ha' : extractNumber ca.pullRequestURL =
        toString ((atoiOpt (extractNumber ca.pullRequestURL)).getD 0) :=
      canonicalNumStr_toString hna rfl
    have hb' : extractNumber cb.pullRequestURL =
        toString ((atoiOpt (extractNumber cb.pullRequestURL)).getD 0) :=
      canonicalNumStr_toString hnb rfl
    have hnn : (atoiOpt (extractNumber ca.pullRequestURL)).getD 0 =
        (atoiOpt (extractNumber cb.pullRequestURL)).getD 0 := by
      rw [hsa, hsb] at hnum
      exact hnum
    rw [hsa, hsb]
    show "Reviewed PR #" ++ extractNumber ca.pullRequestURL =
      "Reviewed PR #" ++ extractNumber cb.pullRequestURL
    rw [ha', hb', hnn]

lemma extractWorkItemsAux_pairwise {u : String} {t : Int} :
    ∀ {l : List RepoReport} {ks : List String},
      (l.map fullRepoOf).Nodup →
      (∀ rr ∈ l,
        (∀ c ∈ rr.issueComments, canonicalNumStr (extractNumber c.issueURL) = true) ∧
        (∀ c ∈ rr.reviewComments,
          canonicalNumStr (extractNumber c.pullRequestURL) = true)) →
      (extractWorkItemsAux u t ks l).Pairwise WorkDistinct := by
  intro l
  induction l with
  | nil => intro ks _ _; simp [extractWorkItemsAux]
  | cons rr0 rest ih =>
    intro ks hnd hcanon
    rw [List.map_cons, List.nodup_cons] at hnd
    obtain ⟨hnd0, hndrest⟩ := hnd
    have hcanon0 := hcanon rr0 (List.mem_cons_self _ _)
    have hcanonrest : ∀ rr' ∈ rest,
        (∀ c ∈ rr'.issueComments, canonicalNumStr (extractNumber c.issueURL) = true) ∧
        (∀ c ∈ rr'.reviewComments,
          canonicalNumStr (extractNumber c.pullRequestURL) = true) :=
      fun rr' hm => hcanon rr' (List.mem_cons_of_mem _ hm)
    unfold extractWorkItemsAux
    have hA : (prWorkItems u (fullRepoOf rr0) t rr0 rr0.pullRequests).Pairwise
        WorkDistinct :=
      pairwise_of_mem_rel fun a ha b _ => workDistinct_of_pr (mem_prWorkItems ha).1
    have hB : (issueWorkItems u (fullRepoOf rr0) t rr0.issues).Pairwise WorkDistinct :=
      pairwise_of_mem_rel fun a ha b _ => workDistinct_of_issue (mem_issueWorkItems ha).1
    have hC := @comment_batch_distinct u (fullRepoOf rr0) t
      (prAuthorKeysOf u (fullRepoOf rr0) rr0.pullRequests ks)
      rr0.issueComments [] hcanon0.1
    have hD := @review_batch_distinct u (fullRepoOf rr0) t
      (prAuthorKeysOf u (fullRepoOf rr0) rr0.pullRequests ks)
      rr0.reviewComments [] hcanon0.2
    have hE := @ih (prAuthorKeysOf u (fullRepoOf rr0) rr0.pullRequests ks)
      hndrest hcanonrest
    refine List.pairwise_append.mpr ⟨List.pairwise_append.mpr
      ⟨List.pairwise_append.mpr ⟨List.pairwise_append.mpr ⟨hA, hB, ?_⟩, hC, ?_⟩,
        hD, ?_⟩, hE, ?_⟩
    · intro a ha b _
      exact workDistinct_of_pr (mem_prWorkItems ha).1
    · intro a ha b _
      rcases List.mem_append.mp ha with h | h
      · exact workDistinct_of_pr (mem_prWorkItems h).1
      · exact workDistinct_of_issue (mem_issueWorkItems h).1
    · intro a ha b hb
      rcases List.mem_append.mp ha with h | h
      · rcases List.mem_append.mp h with h' | h'
        · exact workDistinct_of_pr (mem_prWorkItems h').1
        · exact workDistinct_of_issue (mem_issueWorkItems h').1
      · obtain ⟨c, _, hshape, _, _⟩ := mem_commentWorkItems h
        obtain ⟨c', _, hshape', _, _⟩ := mem_reviewWorkItems hb
        refine workDistinct_of_types (Or.inr ?_) (Or.inl ?_)
        · rw [hshape']
          intro hh
          exact absurd (show ("review" : String) = "comment" from hh) (by decide)
        · rw [hshape]
          intro hh
          exact absurd (show ("comment" : String) = "review" from hh) (by decide)
    · intro a ha b hb
      have hbrepo : b.repo ∈ rest.map fullRepoOf := extractWorkItemsAux_repo hb
      rcases List.mem_append.mp ha with h | h
      · rcases List.mem_append.mp h with h' | h'
        · rcases List.mem_append.mp h' with h'' | h''
          · exact workDistinct_of_pr (mem_prWorkItems h'').1
          · exact workDistinct_of_issue (mem_issueWorkItems h'').1
        · obtain ⟨c, _, hshape, _, _⟩ := mem_commentWorkItems h'
          refine workDistinct_of_repo fun hre => hnd0 ?_
          have : a.repo = fullRepoOf rr0 := by rw [hshape]; rfl
          rw [← this, hre]
          exact hbrepo
      · obtain ⟨c, _, hshape, _, _⟩ := mem_reviewWorkItems h
        refine workDistinct_of_repo fun hre => hnd0 ?_
        have : a.repo = fullRepoOf rr0 := by rw [hshape]; rfl
        rw [← this, hre]
        exact hbrepo

/-- C6 (amended): provided the aggregates' `owner/repo` identifiers are
pairwise distinct and every comment/review URL extracts a canonical decimal
number string, `extractWorkItems` never returns two comment entries for the
same `(repo, number)` pair, never two review entries for the same
`(repo, number)` pair, and never a comment or review entry whose
`(repo, number)` matches a pull request of the filtering user (any author
when the filter is empty) in that repository's aggregate.  (Without the two
provisos the claim fails, see `extractWorkItems_dedup_suppression_cex`.) -/
theorem extractWorkItems_dedup_suppression
    (reports : List RepoReport) (user : String) (today : Int)
    (hrep : (reports.map fullRepoOf).Nodup)
    (hcanon : ∀ rr ∈ reports,
      (∀ c ∈ rr.issueComments, canonicalNumStr (extractNumber c.issueURL) = true) ∧
      (∀ c ∈ rr.reviewComments,
        canonicalNumStr (extractNumber c.pullRequestURL) = true)) :
    (extractWorkItems reports user today).Pairwise WorkDistinct ∧
    (∀ w ∈ extractWorkItems reports user today,
      w.itemType = "comment" ∨ w.itemType = "review" →
      ∀ rr ∈ reports, fullRepoOf rr = w.repo →
      ∀ pr ∈ rr.pullRequests, (user = "" ∨ pr.user = user) →
        w.number ≠ pr.number) := by
  constructor
  · exact extractWorkItemsAux_pairwise hrep hcanon
  · intro w hw hkind rr hrr hrepo pr hpr hauth
    have hguard : ¬ (user ≠ "" ∧ pr.user ≠ user) := by
      rcases hauth with h | h
      · exact fun hg => hg.1 h
      · exact fun hg => hg.2 h
    exact extractWorkItemsAux_suppression hrep hcanon hw hkind rr hrr hrepo
      pr hpr hguard

/-- Witness for `extractWorkItems_dedup_suppression` at a concrete input (one
aggregate, one comment on issue 7, user filter `u`). -/
theorem extractWorkItems_dedup_suppression_witness :
    (extractWorkItems [⟨"o", "r", [], [], [⟨"u", 0, "h/7", "u1"⟩], [],
        fun _ => [], []⟩] "u" 0).Pairwise WorkDistinct ∧
    (∀ w ∈ extractWorkItems [⟨"o", "r", [], [], [⟨"u", 0, "h/7", "u1"⟩], [],
        fun _ => [], []⟩] "u" 0,
      w.itemType = "comment" ∨ w.itemType = "review" →
      ∀ rr ∈ [(⟨"o", "r", [], [], [⟨"u", 0, "h/7", "u1"⟩], [],
          fun _ => [], []⟩ : RepoReport)], fullRepoOf rr = w.repo →
      ∀ pr ∈ rr.pullRequests, ("u" = "" ∨ pr.user = "u") →
        w.number ≠ pr.number) :=
  extractWorkItems_dedup_suppression _ "u" 0 (by decide) (by decide)

/-- Counterexample to C6 as stated: (i) with the same repository appearing as
two aggregates, the per-aggregate comment dedup map is reset, so two comment
entries with the same `(repo, number)` survive; (ii) a URL whose trailing
number has a leading zero (`…/07`) yields a comment key `o/r#07` that differs
from the author key `o/r#7`, so a comment on the user's own pull request 7
escapes suppression and matches it by number. -/
theorem extractWorkItems_dedup_suppression_cex :
    (extractWorkItems
        [⟨"o", "r", [], [], [⟨"u", 0, "h/7", "u1"⟩], [], fun _ => [], []⟩,
         ⟨"o", "r", [], [], [⟨"u", 0, "h/7", "u1"⟩], [], fun _ => [], []⟩]
        "u" 0 =
      [⟨"comment", "o/r", 7, "Commented on #7", "", "u1", ""⟩,
       ⟨"comment", "o/r", 7, "Commented on #7", "", "u1", ""⟩]) ∧
    (extractWorkItems
        [⟨"o", "r", [],
          [⟨"u", 7, "t", "closed", false, "purl", -100, none, some (-100), []⟩],
          [⟨"u", 0, "h/07", "u2"⟩], [], fun _ => [], []⟩] "u" 0 =
      [⟨"comment", "o/r", 7, "Commented on #07", "", "u2", ""⟩]) :=
  ⟨rfl, rfl⟩

/-- C10 (amended): with an empty user filter every pull request of an
aggregate is added to the author-suppression set, so — provided the
aggregates have pairwise-distinct repo identifiers and every comment/review
URL extracts a canonical decimal number string — the output never contains a
comment or review entry whose `(repo, number)` matches any pull request
present in that repository's aggregate. -/
theorem extractWorkItems_empty_user_suppression
    (reports : List RepoReport) (today : Int)
    (hrep : (reports.map fullRepoOf).Nodup)
    (hcanon : ∀ rr ∈ reports,
      (∀ c ∈ rr.issueComments, canonicalNumStr (extractNumber c.issueURL) = true) ∧
      (∀ c ∈ rr.reviewComments,
        canonicalNumStr (extractNumber c.pullRequestURL) = true)) :
    (∀ (R : String) (acc : List String) (prs : List PullRequest), ∀ pr ∈ prs,
      numKey R pr.number ∈ prAuthorKeysOf "" R prs acc) ∧
    (∀ w ∈ extractWorkItems reports "" today,
      w.itemType = "comment" ∨ w.itemType = "review" →
      ∀ rr ∈ reports, fullRepoOf rr = w.repo →
      ∀ pr ∈ rr.pullRequests, w.number ≠ pr.number) := by
  constructor
  · intro R acc prs pr hpr
    exact mem_prAuthorKeysOf hpr (by simp)
  · intro w hw hkind rr hrr hrepo pr hpr
    exact extractWorkItemsAux_suppression hrep hcanon hw hkind rr hrr hrepo
      pr hpr (by simp)

/-- Witness for `extractWorkItems_empty_user_suppression` at a concrete input
(one aggregate with pull request 7 by `bob` and a comment on issue 9, empty
user filter). -/
theorem extractWorkItems_empty_user_suppression_witness :
    (∀ (R : String) (acc : List String) (prs : List PullRequest), ∀ pr ∈ prs,
      numKey R pr.number ∈ prAuthorKeysOf "" R prs acc) ∧
    (∀ w ∈ extractWorkItems [⟨"o", "r", [],
        [⟨"bob", 7, "t", "closed", false, "purl", -100, none, some (-100), []⟩],
        [⟨"y", 0, "h/9", "u5"⟩], [], fun _ => [], []⟩] "" 0,
      w.itemType = "comment" ∨ w.itemType = "review" →
      ∀ rr ∈ [(⟨"o", "r", [],
          [⟨"bob", 7, "t", "closed", false, "purl", -100, none, some (-100), []⟩],
          [⟨"y", 0, "h/9", "u5"⟩], [], fun _ => [], []⟩ : RepoReport)],
        fullRepoOf rr = w.repo →
      ∀ pr ∈ rr.pullRequests, w.number ≠ pr.number) :=
  extractWorkItems_empty_user_suppression _ 0 (by decide) (by decide)

/-- Counterexample to C10 as stated: (i) with the same repository appearing
as two aggregates, a comment in the first aggregate is processed before the
second aggregate's pull requests are recorded, so it survives although pull
request 7 is present in an aggregate of that repository; (ii) a `…/07` URL
escapes suppression as in the C6 counterexample, yielding a comment entry
whose `(repo, number)` matches a fetched pull request. -/
theorem extractWorkItems_empty_user_suppression_cex :
    (extractWorkItems
        [⟨"o", "r", [], [], [⟨"x", 0, "h/7", "u3"⟩], [], fun _ => [], []⟩,
         ⟨"o", "r", [],
          [⟨"bob", 7, "t", "closed", false, "purl", -100, none, some (-100), []⟩],
          [], [], fun _ => [], []⟩] "" 0 =
      [⟨"comment", "o/r", 7, "Commented on #7", "", "u3", ""⟩]) ∧
    (extractWorkItems
        [⟨"o", "r", [],
          [⟨"bob", 7, "t", "closed", false, "purl", -100, none, some (-100), []⟩],
          [⟨"y", 0, "h/07", "u4"⟩], [], fun _ => [], []⟩] "" 0 =
      [⟨"comment", "o/r", 7, "Commented on #07", "", "u4", ""⟩]) :=
  ⟨rfl, rfl⟩

/-- A pull request that qualifies for Source A of `extractPlanItems`: passes
the user filter, the assignee filter, and is neither merged nor closed. -/
def qualifiesSourceA (user : String) (pr : PullRequest) : Prop :=
  ¬ (user ≠ "" ∧ pr.user ≠ user) ∧
  ¬ (user ≠ "" ∧ pr.assignees ≠ [] ∧ hasAssignee pr.assignees user = false) ∧
  ¬ (prDisplayState pr = "merged" ∨ prDisplayState pr = "closed")

/-- A project item the Source-B filter of `extractPlanItems` treats as
finished: `DONE` status, or `CLOSED`/`MERGED` state (upper-cased compare). -/
def finishedItem (item : ProjectItem) : Prop :=
  upperStr item.status = "DONE" ∨ upperStr item.state = "CLOSED" ∨
    upperStr item.state = "MERGED"

instance : DecidablePred finishedItem := fun item => by
  unfold finishedItem
  infer_instance

/-- A project item that qualifies for Source B of `extractPlanItems` under a
current iteration titled `curTitle`. -/
def qualifiesSourceB (user fullRepo curTitle : String) (item : ProjectItem) : Prop :=
  item.iteration = curTitle ∧
  containsSubstrS item.url fullRepo = true ∧
  ¬ (user ≠ "" ∧ containsString item.assignees user = false) ∧
  ¬ finishedItem item

lemma planAStep_spec (u R : String) (st : List PlanItem × List String)
    (pr : PullRequest) :
    planAStep u R st pr = st ∨
    (numKey R pr.number ∉ st.2 ∧
      planAStep u R st pr =
        (st.1 ++ [⟨R, pr.number, pr.title, pr.htmlURL, "", "open_pr"⟩],
         numKey R pr.number :: st.2)) := by
  unfold planAStep
  by_cases h1 : u ≠ "" ∧ pr.user ≠ u
  · rw [if_pos h1]; exact Or.inl rfl
  · rw [if_neg h1]
    by_cases h2 : u ≠ "" ∧ pr.assignees ≠ [] ∧ hasAssignee pr.assignees u = false
    · rw [if_pos h2]; exact Or.inl rfl
    · rw [if_neg h2]
      by_cases h3 : prDisplayState pr = "merged" ∨ prDisplayState pr = "closed"
      · rw [if_pos h3]; exact Or.inl rfl
      · rw [if_neg h3]
        by_cases h4 : numKey R pr.number ∈ st.2
        · rw [if_pos h4]; exact Or.inl rfl
        · rw [if_neg h4]; exact Or.inr ⟨h4, rfl⟩

lemma planAStep_qual_spec (u R : String) (st : List PlanItem × List String)
    (pr : PullRequest) (hq : qualifiesSourceA u pr) :
    (numKey R pr.number ∈ st.2 ∧ planAStep u R st pr = st) ∨
    (numKey R pr.number ∉ st.2 ∧
      planAStep u R st pr =
        (st.1 ++ [⟨R, pr.number, pr.title, pr.htmlURL, "", "open_pr"⟩],
         numKey R pr.number :: st.2)) := by
  obtain ⟨h1, h2, h3⟩ := hq
  unfold planAStep
  rw [if_neg h1, if_neg h2, if_neg h3]
  by_cases h4 : numKey R pr.number ∈ st.2
  · rw [if_pos h4]; exact Or.inl ⟨h4, rfl⟩
  · rw [if_neg h4]; exact Or.inr ⟨h4, rfl⟩

lemma planBStep_spec (u R cur : String) (st : List PlanItem × List String)
    (item : ProjectItem) :
    planBStep u R cur st item = st ∨
    (¬ finishedItem item ∧ numKey R item.number ∈ st.2 ∧
      planBStep u R cur st item =
        (backfillStatus st.1 (numKey R item.number) item.status, st.2)) ∨
    (¬ finishedItem item ∧ numKey R item.number ∉ st.2 ∧
      planBStep u R cur st item =
        (st.1 ++ [⟨R, item.number, item.title, item.url, item.status,
            "project_item"⟩],
         numKey R item.number :: st.2)) := by
  unfold planBStep
  by_cases h1 : item.iteration ≠ cur
  · rw [if_pos h1]; exact Or.inl rfl
  · rw [if_neg h1]
    by_cases h2 : containsSubstrS item.url R = false
    · rw [if_pos h2]; exact Or.inl rfl
    · rw [if_neg h2]
      by_cases h3 : u ≠ "" ∧ containsString item.assignees u = false
      · rw [if_pos h3]; exact Or.inl rfl
      · rw [if_neg h3]
        by_cases h4 : upperStr item.status = "DONE" ∨ upperStr item.state = "CLOSED" ∨
            upperStr item.state = "MERGED"
        · rw [if_pos h4]; exact Or.inl rfl
        · rw [if_neg h4]
          by_cases h5 : numKey R item.number ∈ st.2
          · rw [if_pos h5]; exact Or.inr (Or.inl ⟨h4, h5, rfl⟩)
          · rw [if_neg h5]; exact Or.inr (Or.inr ⟨h4, h5, rfl⟩)

lemma planBStep_qual_spec (u R cur : String) (st : List PlanItem × List String)
    (item : ProjectItem) (hq : qualifiesSourceB u R cur item) :
    (numKey R item.number ∈ st.2 ∧
      planBStep u R cur st item =
        (backfillStatus st.1 (numKey R item.number) item.status, st.2)) ∨
    (numKey R item.number ∉ st.2 ∧
      planBStep u R cur st item =
        (st.1 ++ [⟨R, item.number, item.title, item.url, item.status,
            "project_item"⟩],
         numKey R item.number :: st.2)) := by
  obtain ⟨h1, h2, h3, h4⟩ := hq
  unfold planBStep
  have h1' : ¬ item.iteration ≠ cur := fun hne => hne h1
  have h2' : ¬ containsSubstrS item.url R = false := by rw [h2]; decide
  have h4' : ¬ (upperStr item.status = "DONE" ∨ upperStr item.state = "CLOSED" ∨
      upperStr item.state = "MERGED") := h4
  rw [if_neg h1', if_neg h2', if_neg h3, if_neg h4']
  by_cases h5 : numKey R item.number ∈ st.2
  · rw [if_pos h5]; exact Or.inl ⟨h5, rfl⟩
  · rw [if_neg h5]; exact Or.inr ⟨h5, rfl⟩

/-- State invariant of the `extractPlanItems` loops: the entry keys are
pairwise distinct and the `seen` set holds exactly those keys. -/
def PlanInv (st : List PlanItem × List String) : Prop :=
  (st.1.map planItemKey).Nodup ∧
  ∀ k, k ∈ st.2 ↔ k ∈ st.1.map planItemKey

lemma backfill_keys (items : List PlanItem) (key status : String) :
    (backfillStatus items key status).map planItemKey = items.map planItemKey := by
  unfold backfillStatus
  rw [List.map_map]
  apply List.map_congr_left
  intro p _
  by_cases hc : planItemKey p = key ∧ p.status = ""
  · simp only [Function.comp_apply, if_pos hc]
    rfl
  · simp only [Function.comp_apply, if_neg hc]

lemma planInv_backfill {st : List PlanItem × List String} (hinv : PlanInv st)
    (k s : String) : PlanInv (backfillStatus st.1 k s, st.2) := by
  obtain ⟨hnd, hiff⟩ := hinv
  constructor
  · show ((backfillStatus st.1 k s).map planItemKey).Nodup
    rw [backfill_keys]
    exact hnd
  · intro k'
    show k' ∈ st.2 ↔ k' ∈ (backfillStatus st.1 k s).map planItemKey
    rw [backfill_keys]
    exact hiff k'

lemma planInv_append {st : List PlanItem × List String} (hinv : PlanInv st)
    {p : PlanItem} (hk : planItemKey p ∉ st.2) :
    PlanInv (st.1 ++ [p], planItemKey p :: st.2) := by
  obtain ⟨hnd, hiff⟩ := hinv
  constructor
  · show ((st.1 ++ [p]).map planItemKey).Nodup
    rw [List.map_append]
    rw [List.nodup_append]
    refine ⟨hnd, by simp, ?_⟩
    intro a ha hb
    simp only [List.map_cons, List.map_nil, List.mem_singleton] at hb
    subst hb
    exact hk ((hiff _).mpr ha)
  · intro k'
    show k' ∈ planItemKey p :: st.2 ↔ k' ∈ (st.1 ++ [p]).map planItemKey
    rw [List.map_append, List.mem_append, List.mem_cons, hiff k']
    simp only [List.map_cons, List.map_nil, List.mem_singleton]
    tauto

/-- The key `k` has been recorded and every entry carrying it has a non-empty
status; tracks the C7 merge guarantee through the Source-B loops. -/
def KeyFilled (st : List PlanItem × List String) (k : String) : Prop :=
  k ∈ st.2 ∧ ∀ p ∈ st.1, planItemKey p = k → p.status ≠ ""

lemma keyFilled_append {st : List PlanItem × List String} {k : String}
    (h : KeyFilled st k) {p : PlanItem} (hk : planItemKey p ∉ st.2) :
    KeyFilled (st.1 ++ [p], planItemKey p :: st.2) k := by
  obtain ⟨hseen, hfill⟩ := h
  refine ⟨List.mem_cons_of_mem _ hseen, ?_⟩
  intro q hq hkq
  rcases List.mem_append.mp hq with h' | h'
  · exact hfill q h' hkq
  · rw [List.mem_singleton.mp h'] at hkq ⊢
    rw [hkq] at hk
    exact absurd hseen hk

lemma keyFilled_backfill {st : List PlanItem × List String} {k : String}
    (h : KeyFilled st k) (k' s : String) :
    KeyFilled (backfillStatus st.1 k' s, st.2) k := by
  obtain ⟨hseen, hfill⟩ := h
  refine ⟨hseen, ?_⟩
  intro q hq hkq
  obtain ⟨p, hp, hpq⟩ := List.mem_map.mp hq
  by_cases hc : planItemKey p = k' ∧ p.status = ""
  · rw [if_pos hc] at hpq
    have hkp : planItemKey p = k := by
      rw [← hkq, ← hpq]
      rfl
    exact absurd hc.2 (hfill p hp hkp)
  · rw [if_neg hc] at hpq
    rw [← hpq] at hkq ⊢
    exact hfill p hp hkq

lemma keyFilled_backfill_establish {items : List PlanItem} {st2 : List String}
    {k s : String} (hs : s ≠ "") (hseen : k ∈ st2) :
    KeyFilled (backfillStatus items k s, st2) k := by
  refine ⟨hseen, ?_⟩
  intro q hq hkq
  obtain ⟨p, hp, hpq⟩ := List.mem_map.mp hq
  by_cases hc : planItemKey p = k ∧ p.status = ""
  · rw [if_pos hc] at hpq
    rw [← hpq]
    exact hs
  · rw [if_neg hc] at hpq
    rw [← hpq]
    rw [← hpq] at hkq
    intro hqe
    exact hc ⟨hkq, hqe⟩

lemma keyFilled_append_establish {st : List PlanItem × List String}
    (hinv : PlanInv st) {p : PlanItem} (hk : planItemKey p ∉ st.2)
    (hs : p.status ≠ "") :
    KeyFilled (st.1 ++ [p], planItemKey p :: st.2) (planItemKey p) := by
  refine ⟨List.mem_cons_self _ _, ?_⟩
  intro q hq hkq
  rcases List.mem_append.mp hq with h' | h'
  · exfalso
    apply hk
    rw [← hkq]
    exact (hinv.2 _).mpr (List.mem_map_of_mem _ h')
  · rw [List.mem_singleton.mp h']
    exact hs

lemma planAStep_inv {u R : String} {st : List PlanItem × List String}
    {pr : PullRequest} (h : PlanInv st) : PlanInv (planAStep u R st pr) := by
  rcases planAStep_spec u R st pr with heq | ⟨hk, heq⟩
  · rw [heq]; exact h
  · rw [heq]; exact planInv_append h hk

lemma planAStep_seen {u R : String} {st : List PlanItem × List String}
    {pr : PullRequest} {k : String} (h : k ∈ st.2) : k ∈ (planAStep u R st pr).2 := by
  rcases planAStep_spec u R st pr with heq | ⟨_, heq⟩ <;> rw [heq]
  · exact h
  · exact List.mem_cons_of_mem _ h

lemma planAStep_filled {u R : String} {st : List PlanItem × List String}
    {pr : PullRequest} {k : String} (h : KeyFilled st k) :
    KeyFilled (planAStep u R st pr) k := by
  rcases planAStep_spec u R st pr with heq | ⟨hk, heq⟩ <;> rw [heq]
  · exact h
  · exact keyFilled_append h hk

lemma planBStep_inv {u R cur : String} {st : List PlanItem × List String}
    {item : ProjectItem} (h : PlanInv st) : PlanInv (planBStep u R cur st item) := by
  rcases planBStep_spec u R cur st item with heq | ⟨_, _, heq⟩ | ⟨_, hk, heq⟩ <;> rw [heq]
  · exact h
  · exact planInv_backfill h _ _
  · exact planInv_append h hk

lemma planBStep_seen {u R cur : String} {st : List PlanItem × List String}
    {item : ProjectItem} {k : String} (h : k ∈ st.2) :
    k ∈ (planBStep u R cur st item).2 := by
  rcases planBStep_spec u R cur st item with heq | ⟨_, _, heq⟩ | ⟨_, _, heq⟩ <;> rw [heq]
  · exact h
  · exact h
  · exact List.mem_cons_of_mem _ h

lemma planBStep_filled {u R cur : String} {st : List PlanItem × List String}
    {item : ProjectItem} {k : String} (h : KeyFilled st k) :
    KeyFilled (planBStep u R cur st item) k := by
  rcases planBStep_spec u R cur st item with heq | ⟨_, _, heq⟩ | ⟨_, hk, heq⟩ <;> rw [heq]
  · exact h
  · exact keyFilled_backfill h _ _
  · exact keyFilled_append h hk

lemma planAPRs_inv {u R : String} :
    ∀ {prs : List PullRequest} {st}, PlanInv st → PlanInv (planAPRs u R prs st) := by
  intro prs
  induction prs with
  | nil => intro st h; exact h
  | cons pr prs ih => intro st h; exact ih (planAStep_inv h)

lemma planAPRs_seen {u R : String} {k : String} :
    ∀ {prs : List PullRequest} {st}, k ∈ st.2 → k ∈ (planAPRs u R prs st).2 := by
  intro prs
  induction prs with
  | nil => intro st h; exact h
  | cons pr prs ih => intro st h; exact ih (planAStep_seen h)

lemma planAPRs_filled {u R : String} {k : String} :
    ∀ {prs : List PullRequest} {st}, KeyFilled st k →
      KeyFilled (planAPRs u R prs st) k := by
  intro prs
  induction prs with
  | nil => intro st h; exact h
  | cons pr prs ih => intro st h; exact ih (planAStep_filled h)

lemma planAReports_inv {u : String} :
    ∀ {l : List RepoReport} {st}, PlanInv st → PlanInv (planAReports u l st) := by
  intro l
  induction l with
  | nil => intro st h; exact h
  | cons rr rest ih => intro st h; exact ih (planAPRs_inv h)

lemma planAReports_seen {u : String} {k : String} :
    ∀ {l : List RepoReport} {st}, k ∈ st.2 → k ∈ (planAReports u l st).2 := by
  intro l
  induction l with
  | nil => intro st h; exact h
  | cons rr rest ih => intro st h; exact ih (planAPRs_seen h)

lemma planBItems_inv {u R cur : String} :
    ∀ {items : List ProjectItem} {st}, PlanInv st →
      PlanInv (planBItems u R cur items st) := by
  intro items
  induction items with
  | nil => intro st h; exact h
  | cons item rest ih => intro st h; exact ih (planBStep_inv h)

lemma planBItems_seen {u R cur : String} {k : String} :
    ∀ {items : List ProjectItem} {st}, k ∈ st.2 →
      k ∈ (planBItems u R cur items st).2 := by
  intro items
  induction items with
  | nil => intro st h; exact h
  | cons item rest ih => intro st h; exact ih (planBStep_seen h)

lemma planBItems_filled {u R cur : String} {k : String} :
    ∀ {items : List ProjectItem} {st}, KeyFilled st k →
      KeyFilled (planBItems u R cur items st) k := by
  intro items
  induction items with
  | nil => intro st h; exact h
  | cons item rest ih => intro st h; exact ih (planBStep_filled h)

lemma planBProjects_inv {u R : String} {today : Int} :
    ∀ {pjs : List Project} {st}, PlanInv st →
      PlanInv (planBProjects u R today pjs st) := by
  intro pjs
  induction pjs with
  | nil => intro st h; exact h
  | cons pj rest ih =>
    intro st h
    unfold planBProjects
    cases hcur : (FindRelevantIterations pj.iterations today).current with
    | none => exact ih h
    | some cur => exact ih (planBItems_inv h)

lemma planBProjects_seen {u R : String} {today : Int} {k : String} :
    ∀ {pjs : List Project} {st}, k ∈ st.2 →
      k ∈ (planBProjects u R today pjs st).2 := by
  intro pjs
  induction pjs with
  | nil => intro st h; exact h
  | cons pj rest ih =>
    intro st h
    unfold planBProjects
    cases hcur : (FindRelevantIterations pj.iterations today).current with
    | none => exact ih h
    | some cur => exact ih (planBItems_seen h)

lemma planBProjects_filled {u R : String} {today : Int} {k : String} :
    ∀ {pjs : List Project} {st}, KeyFilled st k →
      KeyFilled (planBProjects u R today pjs st) k := by
  intro pjs
  induction pjs with
  | nil => intro st h; exact h
  | cons pj rest ih =>
    intro st h
    unfold planBProjects
    cases hcur : (FindRelevantIterations pj.iterations today).current with
    | none => exact ih h
    | some cur => exact ih (planBItems_filled h)

lemma planBReports_inv {u : String} {today : Int} :
    ∀ {l : List RepoReport} {st}, PlanInv st →
      PlanInv (planBReports u today l st) := by
  intro l
  induction l with
  | nil => intro st h; exact h
  | cons rr rest ih => intro st h; exact ih (planBProjects_inv h)

lemma planBReports_seen {u : String} {today : Int} {k : String} :
    ∀ {l : List RepoReport} {st}, k ∈ st.2 →
      k ∈ (planBReports u today l st).2 := by
  intro l
  induction l with
  | nil => intro st h; exact h
  | cons rr rest ih => intro st h; exact ih (planBProjects_seen h)

lemma planBReports_filled {u : String} {today : Int} {k : String} :
    ∀ {l : List RepoReport} {st}, KeyFilled st k →
      KeyFilled (planBReports u today l st) k := by
  intro l
  induction l with
  | nil => intro st h; exact h
  | cons rr rest ih => intro st h; exact ih (planBProjects_filled h)

lemma planAPRs_establish {u R : String} :
    ∀ {prs : List PullRequest} {st}, ∀ pr ∈ prs, qualifiesSourceA u pr →
      numKey R pr.number ∈ (planAPRs u R prs st).2 := by
  intro prs
  induction prs with
  | nil => intro st pr h; simp at h
  | cons q qs ih =>
    intro st pr hmem hq
    rcases List.mem_cons.mp hmem with heq | hmem'
    · subst heq
      show numKey R pr.number ∈ (planAPRs u R qs (planAStep u R st pr)).2
      apply planAPRs_seen
      rcases planAStep_qual_spec u R st pr hq with ⟨hin, heq⟩ | ⟨_, heq⟩ <;> rw [heq]
      · exact hin
      · exact List.mem_cons_self _ _
    · exact ih pr hmem' hq

lemma planAReports_establish {u : String} :
    ∀ {l : List RepoReport} {st}, ∀ rr ∈ l, ∀ pr ∈ rr.pullRequests,
      qualifiesSourceA u pr →
      numKey (fullRepoOf rr) pr.number ∈ (planAReports u l st).2 := by
  intro l
  induction l with
  | nil => intro st rr h; simp at h
  | cons rr0 rest ih =>
    intro st rr hmem pr hpr hq
    rcases List.mem_cons.mp hmem with heq | hmem'
    · subst heq
      show numKey (fullRepoOf rr) pr.number ∈
        (planAReports u rest (planAPRs u (fullRepoOf rr) rr.pullRequests st)).2
      exact planAReports_seen (planAPRs_establish pr hpr hq)
    · exact ih rr hmem' pr hpr hq

lemma planBItems_establish {u R cur : String} :
    ∀ {items : List ProjectItem} {st}, PlanInv st →
      ∀ item ∈ items, qualifiesSourceB u R cur item → item.status ≠ "" →
      PlanInv (planBItems u R cur items st) ∧
      KeyFilled (planBItems u R cur items st) (numKey R item.number) := by
  intro items
  induction items with
  | nil => intro st _ item h; simp at h
  | cons it rest ih =>
    intro st hinv item hmem hq hs
    rcases List.mem_cons.mp hmem with heq | hmem'
    · subst heq
      have hstep : PlanInv (planBStep u R cur st item) ∧
          KeyFilled (planBStep u R cur st item) (numKey R item.number) := by
        rcases planBStep_qual_spec u R cur st item hq with ⟨hin, heq⟩ | ⟨hnin, heq⟩ <;>
          rw [heq]
        · exact ⟨planInv_backfill hinv _ _, keyFilled_backfill_establish hs hin⟩
        · exact ⟨planInv_append hinv hnin, keyFilled_append_establish hinv hnin hs⟩
      constructor
      · show PlanInv (planBItems u R cur rest (planBStep u R cur st item))
        exact planBItems_inv hstep.1
      · show KeyFilled (planBItems u R cur rest (planBStep u R cur st item))
          (numKey R item.number)
        exact planBItems_filled hstep.2
    · exact ih (planBStep_inv hinv) item hmem' hq hs

lemma planBProjects_establish {u R : String} {today : Int} :
    ∀ {pjs : List Project} {st}, PlanInv st →
      ∀ pj ∈ pjs, ∀ cur,
        (FindRelevantIterations pj.iterations today).current = some cur →
      ∀ item ∈ pj.items, qualifiesSourceB u R cur.title item → item.status ≠ "" →
      PlanInv (planBProjects u R today pjs st) ∧
      KeyFilled (planBProjects u R today pjs st) (numKey R item.number) := by
  intro pjs
  induction pjs with
  | nil => intro st _ pj h; simp at h
  | cons pj0 rest ih =>
    intro st hinv pj hmem cur hcur item hitem hq hs
    rcases List.mem_cons.mp hmem with heq | hmem'
    · subst heq
      unfold planBProjects
      rw [hcur]
      have hstep := planBItems_establish hinv item hitem hq hs
      exact ⟨planBProjects_inv hstep.1, planBProjects_filled hstep.2⟩
    · unfold planBProjects
      cases hcur0 : (FindRelevantIterations pj0.iterations today).current with
      | none => exact ih hinv pj hmem' cur hcur item hitem hq hs
      | some c0 => exact ih (planBItems_inv hinv) pj hmem' cur hcur item hitem hq hs

lemma planBReports_establish {u : String} {today : Int} :
    ∀ {l : List RepoReport} {st}, PlanInv st →
      ∀ rr ∈ l, ∀ pj ∈ rr.projects, ∀ cur,
        (FindRelevantIterations pj.iterations today).current = some cur →
      ∀ item ∈ pj.items, qualifiesSourceB u (fullRepoOf rr) cur.title item →
      item.status ≠ "" →
      PlanInv (planBReports u today l st) ∧
      KeyFilled (planBReports u today l st)
        (numKey (fullRepoOf rr) item.number) := by
  intro l
  induction l with
  | nil => intro st _ rr h; simp at h
  | cons rr0 rest ih =>
    intro st hinv rr hmem pj hpj cur hcur item hitem hq hs
    rcases List.mem_cons.mp hmem with heq | hmem'
    · subst heq
      have hstep := planBProjects_establish hinv pj hpj cur hcur item hitem hq hs
      constructor
      · show PlanInv (planBReports u today rest
          (planBProjects u (fullRepoOf rr) today rr.projects st))
        exact planBReports_inv hstep.1
      · show KeyFilled (planBReports u today rest
          (planBProjects u (fullRepoOf rr) today rr.projects st))
          (numKey (fullRepoOf rr) item.number)
        exact planBReports_filled hstep.2
    · exact ih (planBProjects_inv hinv) rr hmem' pj hpj cur hcur item hitem hq hs

/-- C7: `extractPlanItems` never returns two entries with the same
`(repo, number)` key; and when the same key qualifies both as a Source-A open
pull request and as a Source-B current-iteration project item, exactly one
entry with that key remains in the output and its status field is non-empty
whenever the Source-B project item supplied a non-empty status label. -/
theorem extractPlanItems_dedup_merge
    (reports : List RepoReport) (user : String) (today : Int) :
    (extractPlanItems reports user today).Pairwise
      (fun a b => a.repo ≠ b.repo ∨ a.number ≠ b.number) ∧
    (∀ rr ∈ reports, ∀ pr ∈ rr.pullRequests, qualifiesSourceA user pr →
      ∀ rr' ∈ reports, ∀ pj ∈ rr'.projects, ∀ cur,
        (FindRelevantIterations pj.iterations today).current = some cur →
      ∀ item ∈ pj.items, qualifiesSourceB user (fullRepoOf rr') cur.title item →
      fullRepoOf rr = fullRepoOf rr' → pr.number = item.number →
      ∃ p ∈ extractPlanItems reports user today,
        planItemKey p = numKey (fullRepoOf rr) pr.number ∧
        (∀ q ∈ extractPlanItems reports user today,
          planItemKey q = numKey (fullRepoOf rr) pr.number → q = p) ∧
        (item.status ≠ "" → p.status ≠ "")) := by
  have hinv0 : PlanInv (([], []) : List PlanItem × List String) := by
    constructor
    · simp
    · intro k; simp
  have hinvA : PlanInv (planAReports user reports ([], [])) :=
    planAReports_inv hinv0
  have hinvF : PlanInv (planBReports user today reports
      (planAReports user reports ([], []))) := planBReports_inv hinvA
  constructor
  · have hnd := hinvF.1
    unfold List.Nodup at hnd
    rw [List.pairwise_map] at hnd
    refine hnd.imp ?_
    intro a b hne
    by_cases hr : a.repo = b.repo
    · refine Or.inr fun hn => hne ?_
      unfold planItemKey
      rw [hr, hn]
    · exact Or.inl hr
  · intro rr hrr pr hpr hqA rr' hrr' pj hpj cur hcur item hitem hqB hrepo hnum
    have hkA : numKey (fullRepoOf rr) pr.number ∈
        (planAReports user reports ([], [])).2 :=
      planAReports_establish rr hrr pr hpr hqA
    have hkF : numKey (fullRepoOf rr) pr.number ∈
        (planBReports user today reports (planAReports user reports ([], []))).2 :=
      planBReports_seen hkA
    have hkmap := (hinvF.2 _).mp hkF
    obtain ⟨p, hp, hkey⟩ := List.mem_map.mp hkmap
    refine ⟨p, hp, hkey, ?_, ?_⟩
    · intro q hq hkq
      exact List.inj_on_of_nodup_map hinvF.1 hq hp (hkq.trans hkey.symm)
    · intro hs
      have hfill := (planBReports_establish hinvA rr' hrr' pj hpj cur hcur item
        hitem hqB hs).2
      have hkk : numKey (fullRepoOf rr') item.number =
          numKey (fullRepoOf rr) pr.number := by
        rw [hrepo, hnum]
      rw [hkk] at hfill
      exact hfill.2 p hp hkey

instance (u : String) : DecidablePred (qualifiesSourceA u) := fun pr => by
  unfold qualifiesSourceA
  infer_instance

instance (u R cur : String) : DecidablePred (qualifiesSourceB u R cur) := fun item => by
  unfold qualifiesSourceB
  infer_instance

/-- Witness for `extractPlanItems_dedup_merge` at a concrete input: pull
request 7 qualifies for Source A and project item 7 (status `P0`) qualifies
for Source B in the current iteration; one merged entry remains. -/
theorem extractPlanItems_dedup_merge_witness :
    qualifiesSourceA ""
      ⟨"alice", 7, "T", "open", false, "http://x/o/r/7", 0, none, none, []⟩ ∧
    (∃ p ∈ extractPlanItems
        [⟨"o", "r", [],
          [⟨"alice", 7, "T", "open", false, "http://x/o/r/7", 0, none, none, []⟩],
          [], [], fun _ => [],
          [⟨"P", 1, [⟨"i1", "S1", some (-86400), 2⟩],
            [⟨"T", 7, "http://x/o/r/7", "OPEN", "Issue", "S1", "P0", []⟩]⟩]⟩]
        "" 0,
      planItemKey p = numKey "o/r" 7 ∧
      (∀ q ∈ extractPlanItems
          [⟨"o", "r", [],
            [⟨"alice", 7, "T", "open", false, "http://x/o/r/7", 0, none, none, []⟩],
            [], [], fun _ => [],
            [⟨"P", 1, [⟨"i1", "S1", some (-86400), 2⟩],
              [⟨"T", 7, "http://x/o/r/7", "OPEN", "Issue", "S1", "P0", []⟩]⟩]⟩]
          "" 0,
        planItemKey q = numKey "o/r" 7 → q = p) ∧
      (("P0" : String) ≠ "" → p.status ≠ "")) := by
  constructor
  · decide
  · exact (extractPlanItems_dedup_merge
      [⟨"o", "r", [],
        [⟨"alice", 7, "T", "open", false, "http://x/o/r/7", 0, none, none, []⟩],
        [], [], fun _ => [],
        [⟨"P", 1, [⟨"i1", "S1", some (-86400), 2⟩],
          [⟨"T", 7, "http://x/o/r/7", "OPEN", "Issue", "S1", "P0", []⟩]⟩]⟩]
      "" 0).2
      ⟨"o", "r", [],
        [⟨"alice", 7, "T", "open", false, "http://x/o/r/7", 0, none, none, []⟩],
        [], [], fun _ => [],
        [⟨"P", 1, [⟨"i1", "S1", some (-86400), 2⟩],
          [⟨"T", 7, "http://x/o/r/7", "OPEN", "Issue", "S1", "P0", []⟩]⟩]⟩
      (List.mem_singleton.mpr rfl)
      ⟨"alice", 7, "T", "open", false, "http://x/o/r/7", 0, none, none, []⟩
      (by decide) (by decide)
      ⟨"o", "r", [],
        [⟨"alice", 7, "T", "open", false, "http://x/o/r/7", 0, none, none, []⟩],
        [], [], fun _ => [],
        [⟨"P", 1, [⟨"i1", "S1", some (-86400), 2⟩],
          [⟨"T", 7, "http://x/o/r/7", "OPEN", "Issue", "S1", "P0", []⟩]⟩]⟩
      (List.mem_singleton.mpr rfl)
      ⟨"P", 1, [⟨"i1", "S1", some (-86400), 2⟩],
        [⟨"T", 7, "http://x/o/r/7", "OPEN", "Issue", "S1", "P0", []⟩]⟩
      (by decide)
      ⟨"i1", "S1", some (-86400), 2⟩ (by decide)
      ⟨"T", 7, "http://x/o/r/7", "OPEN", "Issue", "S1", "P0", []⟩
      (by decide) (by decide) rfl rfl

/-- No plan entry carries a `DONE` status label. -/
def NoDoneStatus (items : List PlanItem) : Prop :=
  ∀ p ∈ items, upperStr p.status ≠ "DONE"

lemma noDone_planAStep {u R : String} {st : List PlanItem × List String}
    {pr : PullRequest} (h : NoDoneStatus st.1) :
    NoDoneStatus (planAStep u R st pr).1 := by
  rcases planAStep_spec u R st pr with heq | ⟨_, heq⟩ <;> rw [heq]
  · exact h
  · intro q hq
    rcases List.mem_append.mp hq with h' | h'
    · exact h q h'
    · rw [List.mem_singleton.mp h']
      show upperStr "" ≠ "DONE"
      decide

lemma noDone_planBStep {u R cur : String} {st : List PlanItem × List String}
    {item : ProjectItem} (h : NoDoneStatus st.1) :
    NoDoneStatus (planBStep u R cur st item).1 := by
  rcases planBStep_spec u R cur st item with heq | ⟨hnf, _, heq⟩ | ⟨hnf, _, heq⟩ <;>
    rw [heq]
  · exact h
  · intro q hq
    obtain ⟨p, hp, hpq⟩ := List.mem_map.mp hq
    by_cases hc : planItemKey p = numKey R item.number ∧ p.status = ""
    · rw [if_pos hc] at hpq
      rw [← hpq]
      exact fun hd => hnf (Or.inl hd)
    · rw [if_neg hc] at hpq
      rw [← hpq]
      exact h p hp
  · intro q hq
    rcases List.mem_append.mp hq with h' | h'
    · exact h q h'
    · rw [List.mem_singleton.mp h']
      exact fun hd => hnf (Or.inl hd)

lemma noDone_planAPRs {u R : String} :
    ∀ {prs : List PullRequest} {st}, NoDoneStatus st.1 →
      NoDoneStatus (planAPRs u R prs st).1 := by
  intro prs
  induction prs with
  | nil => intro st h; exact h
  | cons pr prs ih => intro st h; exact ih (noDone_planAStep h)

lemma noDone_planAReports {u : String} :
    ∀ {l : List RepoReport} {st}, NoDoneStatus st.1 →
      NoDoneStatus (planAReports u l st).1 := by
  intro l
  induction l with
  | nil => intro st h; exact h
  | cons rr rest ih => intro st h; exact ih (noDone_planAPRs h)

lemma noDone_planBItems {u R cur : String} :
    ∀ {items : List ProjectItem} {st}, NoDoneStatus st.1 →
      NoDoneStatus (planBItems u R cur items st).1 := by
  intro items
  induction items with
  | nil => intro st h; exact h
  | cons item rest ih => intro st h; exact ih (noDone_planBStep h)

lemma noDone_planBProjects {u R : String} {today : Int} :
    ∀ {pjs : List Project} {st}, NoDoneStatus st.1 →
      NoDoneStatus (planBProjects u R today pjs st).1 := by
  intro pjs
  induction pjs with
  | nil => intro st h; exact h
  | cons pj rest ih =>
    intro st h
    unfold planBProjects
    cases hcur : (FindRelevantIterations pj.iterations today).current with
    | none => exact ih h
    | some cur => exact ih (noDone_planBItems h)

lemma noDone_planBReports {u : String} {today : Int} :
    ∀ {l : List RepoReport} {st}, NoDoneStatus st.1 →
      NoDoneStatus (planBReports u today l st).1 := by
  intro l
  induction l with
  | nil => intro st h; exact h
  | cons rr rest ih => intro st h; exact ih (noDone_planBProjects h)

/-- A project with the items the Source-B filter rejects as finished
removed. -/
def dropFinishedProject (pj : Project) : Project :=
  { pj with items := pj.items.filter fun it => !(decide (finishedItem it)) }

/-- An aggregate with every finished project item removed. -/
def dropFinishedRepo (rr : RepoReport) : RepoReport :=
  { rr with projects := rr.projects.map dropFinishedProject }

/-- Aggregates with every finished project item removed. -/
def dropFinishedItems (reports : List RepoReport) : List RepoReport :=
  reports.map dropFinishedRepo

lemma planBStep_finished {u R cur : String} {st : List PlanItem × List String}
    {item : ProjectItem} (hf : finishedItem item) :
    planBStep u R cur st item = st := by
  unfold planBStep
  by_cases h1 : item.iteration ≠ cur
  · rw [if_pos h1]
  · rw [if_neg h1]
    by_cases h2 : containsSubstrS item.url R = false
    · rw [if_pos h2]
    · rw [if_neg h2]
      by_cases h3 : u ≠ "" ∧ containsString item.assignees u = false
      · rw [if_pos h3]
      · rw [if_neg h3]
        have hf' : upperStr item.status = "DONE" ∨ upperStr item.state = "CLOSED" ∨
            upperStr item.state = "MERGED" := hf
        rw [if_pos hf']

lemma planBItems_filter {u R cur : String} :
    ∀ {items : List ProjectItem} {st},
      planBItems u R cur (items.filter fun it => !(decide (finishedItem it))) st =
        planBItems u R cur items st := by
  intro items
  induction items with
  | nil => intro st; rfl
  | cons it rest ih =>
    intro st
    rw [List.filter_cons]
    by_cases hf : finishedItem it
    · have hb : (!(decide (finishedItem it))) = false := by
        rw [decide_eq_true hf]
        rfl
      rw [hb]
      simp only [Bool.false_eq_true, if_false]
      rw [ih]
      show planBItems u R cur rest st =
        planBItems u R cur rest (planBStep u R cur st it)
      rw [planBStep_finished hf]
    · have hb : (!(decide (finishedItem it))) = true := by
        rw [decide_eq_false hf]
        rfl
      rw [hb]
      simp only [if_true]
      show planBItems u R cur (List.filter (fun it => !(decide (finishedItem it))) rest)
        (planBStep u R cur st it) = planBItems u R cur rest (planBStep u R cur st it)
      exact ih

lemma planBProjects_filter {u R : String} {today : Int} :
    ∀ {pjs : List Project} {st},
      planBProjects u R today (pjs.map dropFinishedProject) st =
        planBProjects u R today pjs st := by
  intro pjs
  induction pjs with
  | nil => intro st; rfl
  | cons pj rest ih =>
    intro st
    rw [List.map_cons]
    show planBProjects u R today (rest.map dropFinishedProject)
        (match (FindRelevantIterations pj.iterations today).current with
         | none => st
         | some cur =>
           planBItems u R cur.title
             (pj.items.filter fun it => !(decide (finishedItem it))) st) =
      planBProjects u R today rest
        (match (FindRelevantIterations pj.iterations today).current with
         | none => st
         | some cur => planBItems u R cur.title pj.items st)
    cases hcur : (FindRelevantIterations pj.iterations today).current with
    | none => exact ih
    | some cur =>
      show planBProjects u R today (rest.map dropFinishedProject)
          (planBItems u R cur.title
            (pj.items.filter fun it => !(decide (finishedItem it))) st) =
        planBProjects u R today rest (planBItems u R cur.title pj.items st)
      rw [planBItems_filter]
      exact ih

lemma planAReports_dropFinished {u : String} :
    ∀ {l : List RepoReport} {st},
      planAReports u (dropFinishedItems l) st = planAReports u l st := by
  intro l
  induction l with
  | nil => intro st; rfl
  | cons rr rest ih =>
    intro st
    show planAReports u (rest.map dropFinishedRepo)
        (planAPRs u (fullRepoOf rr) rr.pullRequests st) =
      planAReports u rest (planAPRs u (fullRepoOf rr) rr.pullRequests st)
    exact ih

lemma planBReports_dropFinished {u : String} {today : Int} :
    ∀ {l : List RepoReport} {st},
      planBReports u today (dropFinishedItems l) st = planBReports u today l st := by
  intro l
  induction l with
  | nil => intro st; rfl
  | cons rr rest ih =>
    intro st
    show planBReports u today (rest.map dropFinishedRepo)
        (planBProjects u (fullRepoOf rr) today (rr.projects.map dropFinishedProject) st) =
      planBReports u today rest (planBProjects u (fullRepoOf rr) today rr.projects st)
    rw [planBProjects_filter]
    exact ih

/-- C8 (amended): the Source-B filter of `extractPlanItems` excludes exactly
the project items whose status label is `DONE` or whose state is `CLOSED` or
`MERGED` (case-insensitive): removing those items from the input changes
nothing, and no output entry ever carries a `DONE` status label (a status
label of `CLOSED`/`MERGED` alone, or a state of `DONE` alone, does not
exclude an item — see `extractPlanItems_done_excluded_cex`). -/
theorem extractPlanItems_done_excluded :
    (∀ (reports : List RepoReport) (user : String) (today : Int),
      extractPlanItems (dropFinishedItems reports) user today =
        extractPlanItems reports user today) ∧
    (∀ (reports : List RepoReport) (user : String) (today : Int),
      ∀ p ∈ extractPlanItems reports user today, upperStr p.status ≠ "DONE") := by
  constructor
  · intro reports user today
    unfold extractPlanItems
    rw [planAReports_dropFinished, planBReports_dropFinished]
  · intro reports user today
    have h0 : NoDoneStatus (([], []) : List PlanItem × List String).1 := by
      intro p hp
      simp at hp
    exact noDone_planBReports (noDone_planAReports h0)

/-- Witness for `extractPlanItems_done_excluded` at a concrete input: a
current-iteration project with one `Done` item (assigned to `alice`) and one
`P0` item; the `Done` item is excluded. -/
theorem extractPlanItems_done_excluded_witness :
    extractPlanItems (dropFinishedItems
      [⟨"o", "r", [], [], [], [], fun _ => [],
        [⟨"P", 1, [⟨"i1", "S1", some (-86400), 2⟩],
          [⟨"D", 7, "http://x/o/r/7", "OPEN", "Issue", "S1", "Done", ["alice"]⟩,
           ⟨"T", 8, "http://x/o/r/8", "OPEN", "Issue", "S1", "P0", []⟩]⟩]⟩])
      "" 0 =
      extractPlanItems
      [⟨"o", "r", [], [], [], [], fun _ => [],
        [⟨"P", 1, [⟨"i1", "S1", some (-86400), 2⟩],
          [⟨"D", 7, "http://x/o/r/7", "OPEN", "Issue", "S1", "Done", ["alice"]⟩,
           ⟨"T", 8, "http://x/o/r/8", "OPEN", "Issue", "S1", "P0", []⟩]⟩]⟩]
      "" 0 ∧
    (∀ p ∈ extractPlanItems
      [⟨"o", "r", [], [], [], [], fun _ => [],
        [⟨"P", 1, [⟨"i1", "S1", some (-86400), 2⟩],
          [⟨"D", 7, "http://x/o/r/7", "OPEN", "Issue", "S1", "Done", ["alice"]⟩,
           ⟨"T", 8, "http://x/o/r/8", "OPEN", "Issue", "S1", "P0", []⟩]⟩]⟩]
      "" 0, upperStr p.status ≠ "DONE") :=
  ⟨extractPlanItems_done_excluded.1 _ "" 0,
   extractPlanItems_done_excluded.2 _ "" 0⟩

/-- Counterexample to C8 as stated: a current-iteration project item with
status label `Closed` (state `OPEN`) is NOT excluded — the code only compares
the status label against `DONE` and the state against `CLOSED`/`MERGED`, so
an item whose status label is `CLOSED` (case-insensitively) appears in the
output, contradicting the claim that any item whose status label or state is
one of DONE/CLOSED/MERGED is excluded. -/
theorem extractPlanItems_done_excluded_cex :
    extractPlanItems
      [⟨"o", "r", [], [], [], [], fun _ => [],
        [⟨"P", 1, [⟨"i1", "Sprint 1", some (-86400), 2⟩],
          [⟨"T", 5, "http://x/o/r/5", "OPEN", "Issue", "Sprint 1", "Closed", []⟩]⟩]⟩]
      "" 0 =
      [⟨"o/r", 5, "T", "http://x/o/r/5", "Closed", "project_item"⟩] := rfl

lemma collectRepo_comment_fail {client : Client} {o r : String} {since : Int}
    {user : String} {e : String}
    (hfail : client.listIssueComments o r since = .error e) :
    ∃ m, collectRepo client o r since user = .error m := by
  unfold collectRepo
  cases h1 : client.listIssues o r since with
  | error e1 => exact ⟨_, rfl⟩
  | ok v1 =>
    cases h2 : client.listPullRequests o r since with
    | error e2 => exact ⟨_, rfl⟩
    | ok v2 =>
      rw [hfail]
      exact ⟨_, rfl⟩

lemma collectRepos_fail {client : Client} {since : Int} {user : String} :
    ∀ {l : List (String × String)} {o r : String}, (o, r) ∈ l →
      (∃ m, collectRepo client o r since user = .error m) →
      ∃ m, collectRepos client since user l = .error m := by
  intro l
  induction l with
  | nil => intro o r h; simp at h
  | cons p rest ih =>
    obtain ⟨o0, r0⟩ := p
    intro o r hmem hco
    rcases List.mem_cons.mp hmem with heq | hmem'
    · rw [Prod.mk.injEq] at heq
      obtain ⟨ho, hr⟩ := heq
      subst ho
      subst hr
      obtain ⟨m, hm⟩ := hco
      refine ⟨m, ?_⟩
      show (match collectRepo client o r since user with
        | .error e => .error e
        | .ok rr =>
          match collectRepos client since user rest with
          | .error e => .error e
          | .ok tl => .ok (rr :: tl)) = Except.error m
      rw [hm]
    · cases hco0 : collectRepo client o0 r0 since user with
      | error m0 =>
        refine ⟨m0, ?_⟩
        show (match collectRepo client o0 r0 since user with
          | .error e => .error e
          | .ok rr =>
            match collectRepos client since user rest with
            | .error e => .error e
            | .ok tl => .ok (rr :: tl)) = Except.error m0
        rw [hco0]
      | ok rr0 =>
        obtain ⟨m, hm⟩ := ih hmem' hco
        refine ⟨m, ?_⟩
        show (match collectRepo client o0 r0 since user with
          | .error e => .error e
          | .ok rr =>
            match collectRepos client since user rest with
            | .error e => .error e
            | .ok tl => .ok (rr :: tl)) = Except.error m
        rw [hco0, hm]

/-- C9: if a required per-repository retrieval fails — here the issue-comment
listing of any repository in the parsed list — `Collect` returns an error and
no aggregates (the `Except` contract carries either the aggregate list or a
single error, never both); concretely, with one repository whose comment
listing fails while the other three tier-2 operations succeed, the single
returned error is wrapped with the repository/operation context. -/
theorem collect_comment_failure :
    (∀ (client : Client) (opts : Options) (now : Int)
        (repos : List (String × String)),
      parseRepos opts.repos = .ok repos →
      ∀ o r, (o, r) ∈ repos →
      ∀ e, client.listIssueComments o r (now - secPerDay * opts.days) = .error e →
      ∃ msg, Collect client opts now = .error msg) ∧
    (Collect
      ⟨fun _ _ _ => .ok [], fun _ _ _ => .ok [], fun _ _ _ => .error "boom",
        fun _ _ _ => .ok [], fun _ _ _ => .ok [], fun _ => .ok []⟩
      ⟨["o/r"], 1, ""⟩ 0 =
      .error "listing issue comments for o/r: boom") := by
  constructor
  · intro client opts now repos hparse o r hmem e hfail
    obtain ⟨m, hm⟩ := @collectRepos_fail client (now - secPerDay * opts.days)
      opts.user repos o r hmem (collectRepo_comment_fail hfail)
    refine ⟨m, ?_⟩
    unfold Collect
    rw [hparse]
    show (match collectRepos client (now - secPerDay * opts.days) opts.user repos with
      | Except.error e => Except.error e
      | Except.ok reports => Except.ok (reports.map fun rr =>
          { rr with projects := orgProjectsOf client rr.owner })) = Except.error m
    rw [hm]
  · rfl

/-- Witness for `collect_comment_failure` at a concrete input, discharging
the hypotheses with the concrete failing client. -/
theorem collect_comment_failure_witness :
    ∃ msg, Collect
      ⟨fun _ _ _ => .ok [], fun _ _ _ => .ok [], fun _ _ _ => .error "boom",
        fun _ _ _ => .ok [], fun _ _ _ => .ok [], fun _ => .ok []⟩
      ⟨["o/r"], 1, ""⟩ 0 = .error msg :=
  collect_comment_failure.1
    ⟨fun _ _ _ => .ok [], fun _ _ _ => .ok [], fun _ _ _ => .error "boom",
      fun _ _ _ => .ok [], fun _ _ _ => .ok [], fun _ => .ok []⟩
    ⟨["o/r"], 1, ""⟩ 0 [("o", "r")] rfl "o" "r" (List.mem_singleton.mpr rfl)
    "boom" rfl
